import Mathlib

/-!
Verification of the text-normalization pipeline and prediction adapter of the
komentarbersih dashboard (`utils/cleaning.py`, `utils/predictor.py`).

Strings are modelled as `List Char`; every Python regex substitution of
`clean_text`, the letter-despacing pass `combine_character`, the slang lexicon
loader `load_slang_dict` and the token rewriter `replace_slang` are embedded as
executable scanners with Python `re` leftmost/greedy semantics.  The pipeline
runs after `normalisasi_unicode`, which coerces input to ASCII, so the
embedding works on the ASCII fragment (where `unicodedata.normalize('NFKD', _)`
and `emoji.demojize` are the identity).
-/

/-- Python `\s` on ASCII text: the six ASCII whitespace characters. -/
def isPySpace (c : Char) : Bool :=
  c = ' ' || c = '\t' || c = '\n' || c = '\r' || c = '\x0b' || c = '\x0c'

/-- ASCII letter, as matched by `[a-zA-Z]`. -/
def isAsciiLetter (c : Char) : Bool :=
  ('a' ≤ c && c ≤ 'z') || ('A' ≤ c && c ≤ 'Z')

/-- ASCII digit, as matched by `\d` on ASCII text. -/
def isAsciiDigit (c : Char) : Bool :=
  '0' ≤ c && c ≤ '9'

/-- Python `\w` on ASCII text: letters, digits and underscore. -/
def isWordChar (c : Char) : Bool :=
  isAsciiLetter c || isAsciiDigit c || c = '_'

/-- Python `str.lower` on an ASCII character. -/
def pyLower (c : Char) : Char :=
  if 'A' ≤ c && c ≤ 'Z' then Char.ofNat (c.toNat + 32) else c

/-- Python `str.strip()` on ASCII text: drop leading and trailing whitespace. -/
def pyStrip (l : List Char) : List Char :=
  ((l.dropWhile isPySpace).reverse.dropWhile isPySpace).reverse

/-!
### The slang lexicon (`load_slang_dict`)

Python dicts are modelled as association lists.  `kamus_manual` is written as
the source's literal in source order; Python's later-duplicate-wins rule and
the first-match lookup below realise the same mapping because the single
duplicated key (`"ngakak"`) is bound to the same value both times.
-/

/-- An association list standing for a Python `Dict[str, str]`. -/
abbrev SlangDict := List (String × String)

/-- Dict lookup (`d[k]` / `k in d`): first binding of `k`. -/
def dictGet : SlangDict → String → Option String
  | [], _ => none
  | (k', v') :: rest, k => if k' = k then some v' else dictGet rest k

/-- Dict update `d[k] = v`: overwrite the binding of `k`, else append. -/
def dictInsert : SlangDict → String → String → SlangDict
  | [], k, v => [(k, v)]
  | (k', v') :: rest, k, v =>
      if k' = k then (k, v) :: rest else (k', v') :: dictInsert rest k v

/-- The hand-authored slang table `kamus_manual` of `load_slang_dict`,
transcribed verbatim in source order. -/
def kamus_manual : SlangDict := [
  ("gk", "tidak"),
  ("gak", "tidak"),
  ("g", "tidak"),
  ("tdk", "tidak"),
  ("ga", "tidak"),
  ("nggak", "tidak"),
  ("enggak", "tidak"),
  ("gpp", "tidak apa-apa"),
  ("gakpapa", "tidak apa-apa"),
  ("tp", "tapi"),
  ("tapi", "tetapi"),
  ("kl", "kalau"),
  ("klw", "kalau"),
  ("kalo", "kalau"),
  ("klo", "kalau"),
  ("krn", "karena"),
  ("karena", "sebab"),
  ("jd", "jadi"),
  ("sdh", "sudah"),
  ("udh", "sudah"),
  ("udah", "sudah"),
  ("dl", "dulu"),
  ("sm", "sama"),
  ("sama", "dengan"),
  ("dg", "dengan"),
  ("dr", "dari"),
  ("utk", "untuk"),
  ("yg", "yang"),
  ("jg", "juga"),
  ("d", "di"),
  ("dll", "dan lain-lain"),
  ("dst", "dan seterusnya"),
  ("ttp", "tetap"),
  ("tsb", "tersebut"),
  ("dlm", "dalam"),
  ("pdhl", "padahal"),
  ("mrk", "mereka"),
  ("sy", "saya"),
  ("gw", "saya"),
  ("gue", "saya"),
  ("gua", "saya"),
  ("w", "saya"),
  ("gwe", "saya"),
  ("km", "kamu"),
  ("lu", "kamu"),
  ("lo", "kamu"),
  ("q", "aku"),
  ("ak", "aku"),
  ("aq", "aku"),
  ("elo", "kamu"),
  ("elu", "kamu"),
  ("loe", "kamu"),
  ("mnrt", "menurut"),
  ("spt", "seperti"),
  ("bener", "benar"),
  ("kok", "mengapa"),
  ("lg", "lagi"),
  ("bgt", "banget"),
  ("banget", "sekali"),
  ("cm", "cuma"),
  ("cuman", "cuma"),
  ("emg", "memang"),
  ("emng", "memang"),
  ("bs", "bisa"),
  ("bsa", "bisa"),
  ("sabi", "bisa"),
  ("bikin", "membuat"),
  ("ksih", "kasih"),
  ("ksh", "kasih"),
  ("jgn", "jangan"),
  ("jngn", "jangan"),
  ("biar", "agar"),
  ("supaya", "agar"),
  ("anjay", "astaga"),
  ("anjir", "astaga"),
  ("anjrit", "astaga"),
  ("wkwk", "haha"),
  ("wkwkwk", "haha"),
  ("wk", "haha"),
  ("lol", "haha"),
  ("ngakak", "tertawa"),
  ("santuy", "santai"),
  ("woles", "santai"),
  ("mager", "malas"),
  ("gabut", "tidak ada kerjaan"),
  ("baper", "terbawa perasaan"),
  ("kepo", "penasaran"),
  ("julid", "iri"),
  ("gibah", "bergosip"),
  ("panik", "takut"),
  ("cape", "capek"),
  ("capekkk", "capek"),
  ("pusinggg", "pusing"),
  ("skuy", "ayo"),
  ("gas", "ayo"),
  ("gaskeun", "ayo"),
  ("mantul", "bagus"),
  ("uhuy", "mantap"),
  ("mantab", "mantap"),
  ("kocak", "lucu"),
  ("ngeri", "hebat"),
  ("goks", "hebat"),
  ("pecah", "seru"),
  ("smg", "semoga"),
  ("receh", "tidak penting"),
  ("lebay", "berlebihan"),
  ("php", "pemberi harapan palsu"),
  ("auto", "langsung"),
  ("halu", "berkhayal"),
  ("ngab", "teman"),
  ("cuy", "teman"),
  ("ngabers", "remaja pria"),
  ("bro", "saudara"),
  ("sis", "kakak"),
  ("tmn", "teman"),
  ("tmn2", "teman-teman"),
  ("bocil", "anak kecil"),
  ("org", "orang"),
  ("bang", "kakak"),
  ("bg", "kakak"),
  ("bng", "kakak"),
  ("kak", "kakak"),
  ("min", "minimal"),
  ("jp", "jackpot"),
  ("jepe", "jackpot"),
  ("jepey", "jackpot"),
  ("bonus", "hadiah"),
  ("depo", "deposit"),
  ("wd", "withdraw"),
  ("bet", "banget"),
  ("gmpng", "mudah"),
  ("gampang", "mudah"),
  ("win", "menang"),
  ("betting", "taruhan"),
  ("slot", "permainan judi"),
  ("event", "acara"),
  ("promo", "promosi"),
  ("gacr", "gacor"),
  ("gcr", "gacor"),
  ("mekswin", "maxwin"),
  ("gacir", "gacor"),
  ("y", "ya"),
  ("kn", "kan"),
  ("cs", "dan kawan kawan"),
  ("dri", "dari"),
  ("msk", "masuk"),
  ("thn", "tahun"),
  ("th", "tahun"),
  ("korup", "korupsi"),
  ("ortu", "orang tua"),
  ("jekpot", "jackpot"),
  ("ny", "nya"),
  ("mmg", "memang"),
  ("klihatan", "terlihat"),
  ("keliatan", "terlihat"),
  ("demen", "suka"),
  ("kayak", "seperti"),
  ("dah", "sudah"),
  ("knp", "kenapa"),
  ("wtf", "astaga"),
  ("sosmed", "sosial media"),
  ("gaspol", "ayo"),
  ("maen", "main"),
  ("judol", "judi online"),
  ("smpe", "sampai"),
  ("sampe", "sampai"),
  ("nyampe", "sampai"),
  ("pinjol", "pinjaman online"),
  ("ntar", "nanti"),
  ("nnti", "nanti"),
  ("nti", "nanti"),
  ("gini", "seperti ini"),
  ("gni", "seperti ini"),
  ("begini", "seperti ini"),
  ("bpk", "bapak"),
  ("bp", "bapak"),
  ("tilep", "mengambil"),
  ("mirip", "seperti"),
  ("mrp", "seperti"),
  ("drpd", "daripada"),
  ("thdp", "terhadap"),
  ("jga", "juga"),
  ("mngkin", "mungkin"),
  ("ap", "apa"),
  ("bkl", "akan"),
  ("bakal", "akan"),
  ("mna", "dimana"),
  ("mn", "dimana"),
  ("mana", "dimana"),
  ("cilik", "kecil"),
  ("pny", "punya"),
  ("wong", "orang"),
  ("msh", "masih"),
  ("sj", "saja"),
  ("pk", "bapak"),
  ("dn", "dan"),
  ("plis", "tolong"),
  ("hati2", "hati hati"),
  ("tlpn", "telepon"),
  ("tlp", "telepon"),
  ("ngakak", "tertawa"),
  ("jir", "astaga")]

/-- One record of the remote Hugging Face dataset: its `text` field when
present (`none` models a record without a `text` field). -/
abbrev HFRow := Option String

/-- The remote-dataset parsing loop of `load_slang_dict`: keep records whose
`text` contains a colon, strip, split on the first colon, strip both halves,
and insert when both are non-empty (later duplicates overwrite). -/
def parse_hf (rows : List HFRow) : SlangDict :=
  let hf_slang : List (List Char) := rows.filterMap (fun r =>
    match r with
    | none => none
    | some t =>
        if t.data.contains ':' then
          let teks := pyStrip t.data
          if teks.contains ':' then some teks else none
        else none)
  hf_slang.foldl (fun d teks =>
    if teks.contains ':' then
      let before := teks.takeWhile (fun c => c ≠ ':')
      let after := (teks.dropWhile (fun c => c ≠ ':')).tail
      let slang := pyStrip before
      let formal := pyStrip after
      if slang ≠ [] ∧ formal ≠ [] then
        dictInsert d (String.mk slang) (String.mk formal)
      else d
    else d) []

/-- `load_slang_dict`, with the outcome of the remote fetch as a parameter:
`some rows` is a successful `load_dataset` call, `none` any exception during
it (caught by the function's `except`, which returns `kamus_manual` alone).
On success the source computes `{**kamus_hf, **kamus_manual}`; with first-match
lookup the same mapping is `kamus_manual ++ kamus_hf`, since hand-authored
entries win on collision.  The function itself never raises: its only fallible
statement sits inside the `try`. -/
def load_slang_dict (fetch : Option (List HFRow)) : SlangDict :=
  match fetch with
  | some rows => kamus_manual ++ parse_hf rows
  | none => kamus_manual

/-!
### `clean_text`: the regex cascade

`clean_text` lowercases, calls `emoji.demojize` (the identity on ASCII text,
since emoji are non-ASCII codepoints), then applies seven `re.sub` passes in
order.  Each pass is embedded as a leftmost scan.  The scanners consume one
scan position per step; they are written with an explicit fuel argument
(`...Go`, fuel `= length` in the wrappers, which the fuel-invariance lemmas
show is always enough) so that every definition computes by structural
recursion.
-/

theorem dropWhile_len_le {α : Type} (p : α → Bool) :
    ∀ l : List α, (l.dropWhile p).length ≤ l.length := by
  intro l
  induction l with
  | nil => simp
  | cons a t ih =>
      by_cases h : p a
      · simp [List.dropWhile_cons, h]; omega
      · simp [List.dropWhile_cons, h]

/-- Characters allowed inside an emoji name: `[a-zA-Z_]`. -/
def isEmojiNameChar (c : Char) : Bool := isAsciiLetter c || c = '_'

/-- Fueled scanner for pass 1, `re.sub(r':[a-zA-Z_]+:', ' ')`: a colon, one or
more letters/underscores, a colon, replaced by one space. -/
def stripEmojiNamesGo : Nat → List Char → List Char
  | 0, l => l
  | _ + 1, [] => []
  | fuel + 1, c :: rest =>
    if c = ':' ∧ rest.takeWhile isEmojiNameChar ≠ [] ∧
        (rest.dropWhile isEmojiNameChar).headD ' ' = ':' then
      ' ' :: stripEmojiNamesGo fuel (rest.dropWhile isEmojiNameChar).tail
    else c :: stripEmojiNamesGo fuel rest

theorem stripEmojiNamesGo_eq_len :
    ∀ fuel l, l.length ≤ fuel →
      stripEmojiNamesGo fuel l = stripEmojiNamesGo l.length l := by
  intro fuel
  induction fuel using Nat.strong_induction_on with
  | _ fuel ih =>
    intro l hl
    match fuel, l with
    | 0, l =>
        have h0 : l = [] := List.eq_nil_of_length_eq_zero (Nat.le_zero.mp hl)
        subst h0; rfl
    | fuel + 1, [] => rfl
    | fuel + 1, c :: rest =>
      have hr : rest.length ≤ fuel := by
        simp only [List.length_cons] at hl; omega
      simp only [stripEmojiNamesGo, List.length_cons]
      split
      · have hx : ((rest.dropWhile isEmojiNameChar).tail).length ≤ rest.length := by
          have h1 := dropWhile_len_le isEmojiNameChar rest
          have h2 := List.length_tail (rest.dropWhile isEmojiNameChar)
          omega
        rw [ih fuel (Nat.lt_succ_self _) _ (le_trans hx hr),
          ih rest.length (by omega) _ hx]
      · rw [ih fuel (Nat.lt_succ_self _) _ hr, ih rest.length (by omega) _ (le_refl _)]

/-- Pass 1 wrapper. -/
def stripEmojiNames (l : List Char) : List Char := stripEmojiNamesGo l.length l

theorem stripEmojiNames_cons (c : Char) (rest : List Char) :
    stripEmojiNames (c :: rest) =
      if c = ':' ∧ rest.takeWhile isEmojiNameChar ≠ [] ∧
          (rest.dropWhile isEmojiNameChar).headD ' ' = ':' then
        ' ' :: stripEmojiNames (rest.dropWhile isEmojiNameChar).tail
      else c :: stripEmojiNames rest := by
  show stripEmojiNamesGo (rest.length + 1) (c :: rest) = _
  simp only [stripEmojiNamesGo]
  split
  · rw [stripEmojiNamesGo_eq_len rest.length _ (by
      have h1 := dropWhile_len_le isEmojiNameChar rest
      have h2 := List.length_tail (rest.dropWhile isEmojiNameChar)
      omega)]
    rfl
  · rfl

/-- `true` iff the text contains the four characters `h t t p` consecutively
(a position where the URL regex could start). -/
def containsHttp : List Char → Bool
  | [] => false
  | c :: rest =>
    if c = 'h' ∧ rest.take 3 = ['t', 't', 'p'] then true else containsHttp rest

/-- Fueled scanner for pass 2, `re.sub(r'http\S+', '')`: `http` followed by at
least one non-whitespace character; the match greedily extends to the next
whitespace and is deleted. -/
def stripUrlsGo : Nat → List Char → List Char
  | 0, l => l
  | _ + 1, [] => []
  | fuel + 1, c :: rest =>
    if c = 'h' ∧ rest.take 3 = ['t', 't', 'p'] ∧ rest.drop 3 ≠ [] ∧
        (!isPySpace ((rest.drop 3).headD ' ')) = true then
      stripUrlsGo fuel ((rest.drop 3).dropWhile (fun x => !isPySpace x))
    else c :: stripUrlsGo fuel rest

theorem stripUrlsGo_eq_len :
    ∀ fuel l, l.length ≤ fuel → stripUrlsGo fuel l = stripUrlsGo l.length l := by
  intro fuel
  induction fuel using Nat.strong_induction_on with
  | _ fuel ih =>
    intro l hl
    match fuel, l with
    | 0, l =>
        have h0 : l = [] := List.eq_nil_of_length_eq_zero (Nat.le_zero.mp hl)
        subst h0; rfl
    | fuel + 1, [] => rfl
    | fuel + 1, c :: rest =>
      have hr : rest.length ≤ fuel := by
        simp only [List.length_cons] at hl; omega
      simp only [stripUrlsGo, List.length_cons]
      split
      · have hx : (((rest.drop 3).dropWhile (fun x => !isPySpace x))).length ≤
            rest.length := by
          have h1 := dropWhile_len_le (fun x => !isPySpace x) (rest.drop 3)
          have h2 := List.length_drop 3 rest
          omega
        rw [ih fuel (Nat.lt_succ_self _) _ (le_trans hx hr),
          ih rest.length (by omega) _ hx]
      · rw [ih fuel (Nat.lt_succ_self _) _ hr, ih rest.length (by omega) _ (le_refl _)]

/-- Pass 2 wrapper. -/
def stripUrls (l : List Char) : List Char := stripUrlsGo l.length l

theorem stripUrls_cons (c : Char) (rest : List Char) :
    stripUrls (c :: rest) =
      if c = 'h' ∧ rest.take 3 = ['t', 't', 'p'] ∧ rest.drop 3 ≠ [] ∧
          (!isPySpace ((rest.drop 3).headD ' ')) = true then
        stripUrls ((rest.drop 3).dropWhile (fun x => !isPySpace x))
      else c :: stripUrls rest := by
  show stripUrlsGo (rest.length + 1) (c :: rest) = _
  simp only [stripUrlsGo]
  split
  · rw [stripUrlsGo_eq_len rest.length _ (by
      have h1 := dropWhile_len_le (fun x => !isPySpace x) (rest.drop 3)
      have h2 := List.length_drop 3 rest
      omega)]
    rfl
  · rfl

/-- Fueled scanner for pass 3, `re.sub(r'@\w+|#\w+', '')`: a sigil followed by
at least one word character; the match greedily extends over word characters
and is deleted. -/
def stripMentionsGo : Nat → List Char → List Char
  | 0, l => l
  | _ + 1, [] => []
  | fuel + 1, c :: rest =>
    if (c = '@' ∨ c = '#') ∧ rest ≠ [] ∧ isWordChar (rest.headD ' ') = true then
      stripMentionsGo fuel (rest.dropWhile isWordChar)
    else c :: stripMentionsGo fuel rest

theorem stripMentionsGo_eq_len :
    ∀ fuel l, l.length ≤ fuel →
      stripMentionsGo fuel l = stripMentionsGo l.length l := by
  intro fuel
  induction fuel using Nat.strong_induction_on with
  | _ fuel ih =>
    intro l hl
    match fuel, l with
    | 0, l =>
        have h0 : l = [] := List.eq_nil_of_length_eq_zero (Nat.le_zero.mp hl)
        subst h0; rfl
    | fuel + 1, [] => rfl
    | fuel + 1, c :: rest =>
      have hr : rest.length ≤ fuel := by
        simp only [List.length_cons] at hl; omega
      simp only [stripMentionsGo, List.length_cons]
      split
      · have hx := dropWhile_len_le isWordChar rest
        rw [ih fuel (Nat.lt_succ_self _) _ (le_trans hx hr),
          ih rest.length (by omega) _ hx]
      · rw [ih fuel (Nat.lt_succ_self _) _ hr, ih rest.length (by omega) _ (le_refl _)]

/-- Pass 3 wrapper. -/
def stripMentions (l : List Char) : List Char := stripMentionsGo l.length l

theorem stripMentions_cons (c : Char) (rest : List Char) :
    stripMentions (c :: rest) =
      if (c = '@' ∨ c = '#') ∧ rest ≠ [] ∧ isWordChar (rest.headD ' ') = true then
        stripMentions (rest.dropWhile isWordChar)
      else c :: stripMentions rest := by
  show stripMentionsGo (rest.length + 1) (c :: rest) = _
  simp only [stripMentionsGo]
  split
  · rw [stripMentionsGo_eq_len rest.length _ (dropWhile_len_le isWordChar rest)]
    rfl
  · rfl

/-- Pass 4, `re.sub(r'[^\w\s]', ' ')`: every character that is neither a word
character nor whitespace becomes a space. -/
def symbolsToSpace (l : List Char) : List Char :=
  l.map (fun c => if isWordChar c || isPySpace c then c else ' ')

/-- Fueled scanner for pass 5, `re.sub(r'\b\d+\b', ' ')`, carrying the
wordness of the previous character.  A match is a maximal digit run whose
neighbours are non-word characters (internal positions of a run are never
boundaries, so backtracking cannot produce partial-run matches); it is
replaced by one space. -/
def stripNumbersAuxGo : Nat → Bool → List Char → List Char
  | 0, _, l => l
  | _ + 1, _, [] => []
  | fuel + 1, prevWord, c :: rest =>
    if isAsciiDigit c = true ∧ prevWord = false then
      if isWordChar ((rest.dropWhile isAsciiDigit).headD ' ') = false then
        ' ' :: stripNumbersAuxGo fuel true (rest.dropWhile isAsciiDigit)
      else
        c :: stripNumbersAuxGo fuel true rest
    else c :: stripNumbersAuxGo fuel (isWordChar c) rest

theorem stripNumbersAuxGo_eq_len :
    ∀ fuel p l, l.length ≤ fuel →
      stripNumbersAuxGo fuel p l = stripNumbersAuxGo l.length p l := by
  intro fuel
  induction fuel using Nat.strong_induction_on with
  | _ fuel ih =>
    intro p l hl
    match fuel, l with
    | 0, l =>
        have h0 : l = [] := List.eq_nil_of_length_eq_zero (Nat.le_zero.mp hl)
        subst h0; rfl
    | fuel + 1, [] => rfl
    | fuel + 1, c :: rest =>
      have hr : rest.length ≤ fuel := by
        simp only [List.length_cons] at hl; omega
      simp only [stripNumbersAuxGo, List.length_cons]
      split
      · split
        · have hx := dropWhile_len_le isAsciiDigit rest
          rw [ih fuel (Nat.lt_succ_self _) _ _ (le_trans hx hr),
            ih rest.length (by omega) _ _ hx]
        · rw [ih fuel (Nat.lt_succ_self _) _ _ hr,
            ih rest.length (by omega) _ _ (le_refl _)]
      · rw [ih fuel (Nat.lt_succ_self _) _ _ hr,
          ih rest.length (by omega) _ _ (le_refl _)]

/-- Pass 5 scanner wrapper (state `prevWord`). -/
def stripNumbersAux (p : Bool) (l : List Char) : List Char :=
  stripNumbersAuxGo l.length p l

theorem stripNumbersAux_cons (p : Bool) (c : Char) (rest : List Char) :
    stripNumbersAux p (c :: rest) =
      if isAsciiDigit c = true ∧ p = false then
        if isWordChar ((rest.dropWhile isAsciiDigit).headD ' ') = false then
          ' ' :: stripNumbersAux true (rest.dropWhile isAsciiDigit)
        else
          c :: stripNumbersAux true rest
      else c :: stripNumbersAux (isWordChar c) rest := by
  show stripNumbersAuxGo (rest.length + 1) p (c :: rest) = _
  simp only [stripNumbersAuxGo]
  split
  · split
    · rw [stripNumbersAuxGo_eq_len rest.length _ _ (dropWhile_len_le isAsciiDigit rest)]
      rfl
    · rfl
  · rfl

/-- Pass 5 starts with no previous character (start of string is a boundary
before a digit). -/
def stripNumbers (l : List Char) : List Char := stripNumbersAux false l

/-- Fueled scanner for pass 6, `re.sub(r'\s+', ' ')`: each maximal whitespace
run becomes one space. -/
def collapseSpacesGo : Nat → List Char → List Char
  | 0, l => l
  | _ + 1, [] => []
  | fuel + 1, c :: rest =>
    if isPySpace c then ' ' :: collapseSpacesGo fuel (rest.dropWhile isPySpace)
    else c :: collapseSpacesGo fuel rest

theorem collapseSpacesGo_eq_len :
    ∀ fuel l, l.length ≤ fuel →
      collapseSpacesGo fuel l = collapseSpacesGo l.length l := by
  intro fuel
  induction fuel using Nat.strong_induction_on with
  | _ fuel ih =>
    intro l hl
    match fuel, l with
    | 0, l =>
        have h0 : l = [] := List.eq_nil_of_length_eq_zero (Nat.le_zero.mp hl)
        subst h0; rfl
    | fuel + 1, [] => rfl
    | fuel + 1, c :: rest =>
      have hr : rest.length ≤ fuel := by
        simp only [List.length_cons] at hl; omega
      simp only [collapseSpacesGo, List.length_cons]
      split
      · have hx := dropWhile_len_le isPySpace rest
        rw [ih fuel (Nat.lt_succ_self _) _ (le_trans hx hr),
          ih rest.length (by omega) _ hx]
      · rw [ih fuel (Nat.lt_succ_self _) _ hr, ih rest.length (by omega) _ (le_refl _)]

/-- Pass 6 wrapper. -/
def collapseSpaces (l : List Char) : List Char := collapseSpacesGo l.length l

theorem collapseSpaces_cons (c : Char) (rest : List Char) :
    collapseSpaces (c :: rest) =
      if isPySpace c then ' ' :: collapseSpaces (rest.dropWhile isPySpace)
      else c :: collapseSpaces rest := by
  show collapseSpacesGo (rest.length + 1) (c :: rest) = _
  simp only [collapseSpacesGo]
  split
  · rw [collapseSpacesGo_eq_len rest.length _ (dropWhile_len_le isPySpace rest)]
    rfl
  · rfl

/-- Fueled scanner for pass 7, `re.sub(r'(\w)\1{2,}', r'\1')`: a word
character followed by at least two copies of itself; the greedy match swallows
the whole equal-run and is replaced by the single character. -/
def collapseRepeatsGo : Nat → List Char → List Char
  | 0, l => l
  | _ + 1, [] => []
  | fuel + 1, c :: rest =>
    if isWordChar c = true ∧ 2 ≤ (rest.takeWhile (fun x => x = c)).length then
      c :: collapseRepeatsGo fuel (rest.dropWhile (fun x => x = c))
    else c :: collapseRepeatsGo fuel rest

theorem collapseRepeatsGo_eq_len :
    ∀ fuel l, l.length ≤ fuel →
      collapseRepeatsGo fuel l = collapseRepeatsGo l.length l := by
  intro fuel
  induction fuel using Nat.strong_induction_on with
  | _ fuel ih =>
    intro l hl
    match fuel, l with
    | 0, l =>
        have h0 : l = [] := List.eq_nil_of_length_eq_zero (Nat.le_zero.mp hl)
        subst h0; rfl
    | fuel + 1, [] => rfl
    | fuel + 1, c :: rest =>
      have hr : rest.length ≤ fuel := by
        simp only [List.length_cons] at hl; omega
      simp only [collapseRepeatsGo, List.length_cons]
      split
      · have hx := dropWhile_len_le (fun x => decide (x = c)) rest
        rw [ih fuel (Nat.lt_succ_self _) _ (le_trans hx hr),
          ih rest.length (by omega) _ hx]
      · rw [ih fuel (Nat.lt_succ_self _) _ hr, ih rest.length (by omega) _ (le_refl _)]

/-- Pass 7 wrapper. -/
def collapseRepeats (l : List Char) : List Char := collapseRepeatsGo l.length l

theorem collapseRepeats_cons (c : Char) (rest : List Char) :
    collapseRepeats (c :: rest) =
      if isWordChar c = true ∧ 2 ≤ (rest.takeWhile (fun x => x = c)).length then
        c :: collapseRepeats (rest.dropWhile (fun x => x = c))
      else c :: collapseRepeats rest := by
  show collapseRepeatsGo (rest.length + 1) (c :: rest) = _
  simp only [collapseRepeatsGo]
  split
  · rw [collapseRepeatsGo_eq_len rest.length _
      (dropWhile_len_le (fun x => decide (x = c)) rest)]
    rfl
  · rfl

/-- `clean_text`: lowercase, demojize (identity on ASCII), the seven passes in
source order, final `strip()`. -/
def clean_text (l : List Char) : List Char :=
  pyStrip (collapseRepeats (collapseSpaces (stripNumbers (symbolsToSpace
    (stripMentions (stripUrls (stripEmojiNames (l.map pyLower))))))))

/-!
### `combine_character`: letter-despacing

The source runs `re.findall(r'\b(?:[a-zA-Z]\s){2,}[a-zA-Z]\b', text)` and
then, for each match, `text = text.replace(match, match.replace(' ', ''))` — a
whole-string textual replacement of every occurrence of the matched substring.
-/

/-- Greedily consume `(letter, whitespace)` pairs, returning the consumed
prefix and the remainder (the `(?:[a-zA-Z]\s)*` engine loop). -/
def takePairs : List Char → List Char × List Char
  | a :: s :: rest =>
      if isAsciiLetter a ∧ isPySpace s then
        (a :: s :: (takePairs rest).1, (takePairs rest).2)
      else ([], a :: s :: rest)
  | other => ([], other)

theorem takePairs_len :
    ∀ l : List Char, (takePairs l).1.length + (takePairs l).2.length = l.length := by
  intro l
  induction l using takePairs.induct with
  | case1 a s rest h ih => simp [takePairs, h]; omega
  | case2 a s rest h => simp [takePairs, h]
  | case3 other h => simp [takePairs]

/-- Fueled scanner for
`re.findall(r'\b(?:[a-zA-Z]\s){2,}[a-zA-Z]\b', text)`: leftmost scan with the
wordness of the previous character as state.  At a letter preceded by a
non-word character the engine greedily consumes `(letter, whitespace)` pairs;
the final `[a-zA-Z]\b` either takes the next character (when that is a letter
followed by a non-word character or the end), or — failing that — backtracks
one pair, which succeeds exactly when at least three pairs were consumed
(`{2,}` forbids fewer than two).  On a failed attempt the scan advances one
position. -/
def findRunsGo : Nat → Bool → List Char → List (List Char)
  | 0, _, _ => []
  | _ + 1, _, [] => []
  | fuel + 1, prevWord, c :: rest =>
    if isAsciiLetter c = true ∧ prevWord = false then
      if (takePairs (c :: rest)).2 = [] then
        if 6 ≤ (takePairs (c :: rest)).1.length then
          (takePairs (c :: rest)).1.dropLast ::
            findRunsGo fuel true [(takePairs (c :: rest)).1.getLastD ' ']
        else findRunsGo fuel true rest
      else
        if isAsciiLetter ((takePairs (c :: rest)).2.headD ' ') = true ∧
            isWordChar ((takePairs (c :: rest)).2.tail.headD ' ') = false then
          if 4 ≤ (takePairs (c :: rest)).1.length then
            ((takePairs (c :: rest)).1 ++ [(takePairs (c :: rest)).2.headD ' ']) ::
              findRunsGo fuel true (takePairs (c :: rest)).2.tail
          else findRunsGo fuel true rest
        else
          if 6 ≤ (takePairs (c :: rest)).1.length then
            (takePairs (c :: rest)).1.dropLast ::
              findRunsGo fuel true
                ((takePairs (c :: rest)).1.getLastD ' ' :: (takePairs (c :: rest)).2)
          else findRunsGo fuel true rest
    else findRunsGo fuel (isWordChar c) rest

theorem findRunsGo_eq_len :
    ∀ fuel p l, l.length ≤ fuel → findRunsGo fuel p l = findRunsGo l.length p l := by
  intro fuel
  induction fuel using Nat.strong_induction_on with
  | _ fuel ih =>
    intro p l hl
    match fuel, l with
    | 0, l =>
        have h0 : l = [] := List.eq_nil_of_length_eq_zero (Nat.le_zero.mp hl)
        subst h0; rfl
    | fuel + 1, [] => rfl
    | fuel + 1, c :: rest =>
      have hr : rest.length ≤ fuel := by
        simp only [List.length_cons] at hl; omega
      have htp := takePairs_len (c :: rest)
      simp only [List.length_cons] at htp
      simp only [findRunsGo, List.length_cons]
      split
      · split
        · split
          · rename_i hnil hsix
            have hx : ([(takePairs (c :: rest)).1.getLastD ' '] : List Char).length ≤
                rest.length := by
              rw [hnil] at htp; simp at htp ⊢; omega
            rw [ih fuel (Nat.lt_succ_self _) _ _ (le_trans hx hr),
              ih rest.length (by omega) _ _ hx]
          · rw [ih fuel (Nat.lt_succ_self _) _ _ hr,
              ih rest.length (by omega) _ _ (le_refl _)]
        · split
          · split
            · have hx : (takePairs (c :: rest)).2.tail.length ≤ rest.length := by
                have h2 := List.length_tail (takePairs (c :: rest)).2
                omega
              rw [ih fuel (Nat.lt_succ_self _) _ _ (le_trans hx hr),
                ih rest.length (by omega) _ _ hx]
            · rw [ih fuel (Nat.lt_succ_self _) _ _ hr,
                ih rest.length (by omega) _ _ (le_refl _)]
          · split
            · rename_i hne hb hsix
              have hx : ((takePairs (c :: rest)).1.getLastD ' ' ::
                  (takePairs (c :: rest)).2).length ≤ rest.length := by
                simp only [List.length_cons]; omega
              rw [ih fuel (Nat.lt_succ_self _) _ _ (le_trans hx hr),
                ih rest.length (by omega) _ _ hx]
            · rw [ih fuel (Nat.lt_succ_self _) _ _ hr,
                ih rest.length (by omega) _ _ (le_refl _)]
      · rw [ih fuel (Nat.lt_succ_self _) _ _ hr,
          ih rest.length (by omega) _ _ (le_refl _)]

/-- The findall scanner wrapper (state: wordness of the previous character). -/
def findRuns (p : Bool) (l : List Char) : List (List Char) :=
  findRunsGo l.length p l

theorem findRuns_cons (p : Bool) (c : Char) (rest : List Char) :
    findRuns p (c :: rest) =
      if isAsciiLetter c = true ∧ p = false then
        if (takePairs (c :: rest)).2 = [] then
          if 6 ≤ (takePairs (c :: rest)).1.length then
            (takePairs (c :: rest)).1.dropLast ::
              findRuns true [(takePairs (c :: rest)).1.getLastD ' ']
          else findRuns true rest
        else
          if isAsciiLetter ((takePairs (c :: rest)).2.headD ' ') = true ∧
              isWordChar ((takePairs (c :: rest)).2.tail.headD ' ') = false then
            if 4 ≤ (takePairs (c :: rest)).1.length then
              ((takePairs (c :: rest)).1 ++ [(takePairs (c :: rest)).2.headD ' ']) ::
                findRuns true (takePairs (c :: rest)).2.tail
            else findRuns true rest
          else
            if 6 ≤ (takePairs (c :: rest)).1.length then
              (takePairs (c :: rest)).1.dropLast ::
                findRuns true
                  ((takePairs (c :: rest)).1.getLastD ' ' :: (takePairs (c :: rest)).2)
            else findRuns true rest
      else findRuns (isWordChar c) rest := by
  have htp := takePairs_len (c :: rest)
  simp only [List.length_cons] at htp
  show findRunsGo (rest.length + 1) p (c :: rest) = _
  simp only [findRunsGo]
  split
  · split
    · split
      · rename_i hnil hsix
        rw [findRunsGo_eq_len rest.length _ _ (by rw [hnil] at htp; simp at htp ⊢; omega)]
        rfl
      · rfl
    · split
      · split
        · rw [findRunsGo_eq_len rest.length _ _ (by
            have h2 := List.length_tail (takePairs (c :: rest)).2
            omega)]
          rfl
        · rfl
      · split
        · rename_i hne hb hsix
          rw [findRunsGo_eq_len rest.length _ _ (by
            simp only [List.length_cons]; omega)]
          rfl
        · rfl
  · rfl

/-- Fueled Python `str.replace(needle, repl)`: left-to-right, non-overlapping
replacement of every occurrence. -/
def replaceAllGo (needle repl : List Char) : Nat → List Char → List Char
  | 0, l => l
  | _ + 1, [] => []
  | fuel + 1, c :: rest =>
    if needle ≠ [] ∧ (c :: rest).take needle.length = needle then
      repl ++ replaceAllGo needle repl fuel ((c :: rest).drop needle.length)
    else c :: replaceAllGo needle repl fuel rest

theorem replaceAllGo_eq_len (needle repl : List Char) :
    ∀ fuel l, l.length ≤ fuel →
      replaceAllGo needle repl fuel l = replaceAllGo needle repl l.length l := by
  intro fuel
  induction fuel using Nat.strong_induction_on with
  | _ fuel ih =>
    intro l hl
    match fuel, l with
    | 0, l =>
        have h0 : l = [] := List.eq_nil_of_length_eq_zero (Nat.le_zero.mp hl)
        subst h0; rfl
    | fuel + 1, [] => rfl
    | fuel + 1, c :: rest =>
      have hr : rest.length ≤ fuel := by
        simp only [List.length_cons] at hl; omega
      simp only [replaceAllGo, List.length_cons]
      split
      · rename_i hpre
        have hx : ((c :: rest).drop needle.length).length ≤ rest.length := by
          have h2 := List.length_drop needle.length (c :: rest)
          have h3 : needle.length ≠ 0 := by
            intro h0; exact hpre.1 (List.eq_nil_of_length_eq_zero h0)
          simp only [List.length_cons] at h2
          omega
        rw [ih fuel (Nat.lt_succ_self _) _ (le_trans hx hr),
          ih rest.length (by omega) _ hx]
      · rw [ih fuel (Nat.lt_succ_self _) _ hr, ih rest.length (by omega) _ (le_refl _)]

/-- `str.replace` wrapper. -/
def replaceAll (needle repl l : List Char) : List Char :=
  replaceAllGo needle repl l.length l

theorem replaceAll_cons (needle repl : List Char) (c : Char) (rest : List Char) :
    replaceAll needle repl (c :: rest) =
      if needle ≠ [] ∧ (c :: rest).take needle.length = needle then
        repl ++ replaceAll needle repl ((c :: rest).drop needle.length)
      else c :: replaceAll needle repl rest := by
  show replaceAllGo needle repl (rest.length + 1) (c :: rest) = _
  simp only [replaceAllGo]
  split
  · rename_i hpre
    rw [replaceAllGo_eq_len needle repl rest.length _ (by
      have h2 := List.length_drop needle.length (c :: rest)
      have h3 : needle.length ≠ 0 := by
        intro h0; exact hpre.1 (List.eq_nil_of_length_eq_zero h0)
      simp only [List.length_cons] at h2
      omega)]
    rfl
  · rfl

/-- `combine_character`: find all despacing matches on the original text, then
replace — for each match in order — every occurrence of the matched substring
by the substring with its `' '` characters removed (`match.replace(' ', '')`).
Non-`str` input is coerced by `str()` before the call (type-level, see
`preprocess_teks`). -/
def combine_character (l : List Char) : List Char :=
  (findRuns false l).foldl
    (fun t m => replaceAll m (m.filter (fun c => c ≠ ' ')) t) l

/-!
### `replace_slang` and the pipeline orchestrator
-/

/-- Fueled Python `str.split()` (no argument): split on whitespace runs,
discarding empty tokens. -/
def pySplitGo : Nat → List Char → List (List Char)
  | 0, _ => []
  | _ + 1, [] => []
  | fuel + 1, c :: rest =>
    if isPySpace c then pySplitGo fuel rest
    else (c :: rest.takeWhile (fun x => !isPySpace x)) ::
      pySplitGo fuel (rest.dropWhile (fun x => !isPySpace x))

theorem pySplitGo_eq_len :
    ∀ fuel l, l.length ≤ fuel → pySplitGo fuel l = pySplitGo l.length l := by
  intro fuel
  induction fuel using Nat.strong_induction_on with
  | _ fuel ih =>
    intro l hl
    match fuel, l with
    | 0, l =>
        have h0 : l = [] := List.eq_nil_of_length_eq_zero (Nat.le_zero.mp hl)
        subst h0; rfl
    | fuel + 1, [] => rfl
    | fuel + 1, c :: rest =>
      have hr : rest.length ≤ fuel := by
        simp only [List.length_cons] at hl; omega
      simp only [pySplitGo, List.length_cons]
      split
      · rw [ih fuel (Nat.lt_succ_self _) _ hr, ih rest.length (by omega) _ (le_refl _)]
      · have hx := dropWhile_len_le (fun x => !isPySpace x) rest
        rw [ih fuel (Nat.lt_succ_self _) _ (le_trans hx hr),
          ih rest.length (by omega) _ hx]

/-- `str.split()` wrapper. -/
def pySplit (l : List Char) : List (List Char) := pySplitGo l.length l

theorem pySplit_cons (c : Char) (rest : List Char) :
    pySplit (c :: rest) =
      if isPySpace c then pySplit rest
      else (c :: rest.takeWhile (fun x => !isPySpace x)) ::
        pySplit (rest.dropWhile (fun x => !isPySpace x)) := by
  show pySplitGo (rest.length + 1) (c :: rest) = _
  simp only [pySplitGo]
  split
  · rfl
  · rw [pySplitGo_eq_len rest.length _ (dropWhile_len_le (fun x => !isPySpace x) rest)]
    rfl

/-- The per-token body of `replace_slang`'s loop: exact lookup; else strip all
non-word characters (`re.sub(r'[^\w]', '', word)`), retry, and on success
re-append `word[len(cleaned_word):]`; else keep the token.  A replacement is
final — it is never looked up again. -/
def substituteToken (kamus : SlangDict) (w : List Char) : List Char :=
  match dictGet kamus (String.mk w) with
  | some v => v.data
  | none =>
    match dictGet kamus (String.mk (w.filter isWordChar)) with
    | some v => v.data ++ w.drop (w.filter isWordChar).length
    | none => w

/-- Python `" ".join(words)`. -/
def pyJoin : List (List Char) → List Char
  | [] => []
  | [w] => w
  | w :: ws => w ++ ' ' :: pyJoin ws

/-- `replace_slang`: split on whitespace, rewrite each token once, re-join
with single spaces.  The source first ensures the lexicon is loaded —
`init_dictionary` cannot fail, because `load_slang_dict`'s only fallible
statement sits inside its `try` — and defaults `kamus_slang` to the loaded
dictionary; the pipeline therefore always reaches this loop, with `kamus` the
result of `load_slang_dict`. -/
def replace_slang (kamus : SlangDict) (text : List Char) : List Char :=
  pyJoin ((pySplit text).map (substituteToken kamus))

/-- `normalisasi_unicode`: `unicodedata.normalize('NFKD', text)` followed by
`.encode('ascii', 'ignore').decode('utf-8')`.  On ASCII characters NFKD is the
identity and the encode keeps them; non-ASCII characters are dropped (ASCII
residue of NFKD decompositions such as `é → e` is not modelled — the pipeline
properties below concern ASCII behaviour).  Non-`str` input is coerced by
`str()` first (type-level: the embedding takes the already-coerced string). -/
def normalisasi_unicode (l : List Char) : List Char :=
  l.filter (fun c => c.toNat < 128)

/-- `preprocess_teks`: unicode normalization, `clean_text`,
`combine_character`, `replace_slang`, final `strip()`.  The slang-fetch
outcome is the `fetch` parameter (see `load_slang_dict`). -/
def preprocess_teks (fetch : Option (List HFRow)) (text : String) : String :=
  String.mk (pyStrip (replace_slang (load_slang_dict fetch)
    (combine_character (clean_text (normalisasi_unicode text.data)))))

/-- `preprocess_teks_batch`: `[]` for an empty input, else `preprocess_teks`
element-wise.  The source's degraded branch (`[str(t) if t else "" ...]`) runs
only when `init_dictionary()` returns `False`, which cannot happen since
`load_slang_dict` never raises; the comprehension is the only live path. -/
def preprocess_teks_batch (fetch : Option (List HFRow)) (texts : List String) :
    List String :=
  if texts = [] then [] else texts.map (preprocess_teks fetch)


/-!
### `predictor.py`: `predict_text` and `predict_batch`

The IndoBERT classifier is the external collaborator: it is modelled as an
oracle producing the logits row(s) for a text (resp. a chunk), with `none`
standing for an exception raised inside the corresponding
tokenizer/model call.  `np.exp` is modelled as an abstract function `pyexp`
(positivity, true of real `exp`, is a hypothesis of the theorems; IEEE-754
underflow of `np.exp` on `float64` is not modelled).  Probabilities are exact
rationals.
-/

attribute [local semireducible] Rat.mul Rat.inv Rat.add Rat.sub

/-- The `{"label": ..., "confidence": ..., "prediction": ...}` result dict. -/
structure PredResult where
  label : String
  confidence : ℚ
  prediction : Int
deriving DecidableEq, Repr

/-- The neutral default `{"label": "Komentar Normal", "confidence": 0.0,
"prediction": 0}`. -/
def defaultNormal : PredResult := ⟨"Komentar Normal", 0, 0⟩

/-- The load-failure result `{"label": "Error", "confidence": 0.0,
"prediction": -1}`. -/
def errorResult : PredResult := ⟨"Error", 0, -1⟩

/-- `probs = np.exp(logits) / np.sum(np.exp(logits))`. -/
def softmax (pyexp : ℚ → ℚ) (logits : List ℚ) : List ℚ :=
  (logits.map pyexp).map (fun e => e / (logits.map pyexp).sum)

/-- `np.argmax` inner loop: earliest index of the maximum. -/
def argmaxGo : List ℚ → Nat → Nat → ℚ → Nat
  | [], _, b, _ => b
  | x :: rest, i, b, m =>
      if m < x then argmaxGo rest (i + 1) i x else argmaxGo rest (i + 1) b m

/-- `int(np.argmax(probs))`: earliest index of the maximum.  On an empty array
`np.argmax` raises; in the source that exception is caught by the surrounding
`except`, which returns exactly the neutral default — the same result this
total model produces (index 0, max 0, label "Komentar Normal"). -/
def npArgmax : List ℚ → Nat
  | [] => 0
  | x :: rest => argmaxGo rest 1 0 x

/-- `float(np.max(probs))`; 0 on the empty array (see `npArgmax`). -/
def npMax : List ℚ → ℚ
  | [] => 0
  | x :: rest => rest.foldl max x

/-- `predict_text`: `modelLoaded` is the outcome of the `load_model()` guard
(`false` → the `{"label": "Error", ..., "prediction": -1}` return); empty and
whitespace-only text short-circuits to the neutral default before the model is
invoked; otherwise softmax over the oracle's logits, argmax and max; `none`
from the oracle (an exception during inference) yields the neutral default via
the `except` branch. -/
def predict_text (modelLoaded : Bool) (cls : String → Option (List ℚ))
    (pyexp : ℚ → ℚ) (text : String) : PredResult :=
  if modelLoaded = false then errorResult
  else if pyStrip text.data = [] then defaultNormal
  else
    match cls text with
    | none => defaultNormal
    | some logits =>
        let probs := softmax pyexp logits
        ⟨if npArgmax probs = 1 then "Komentar Judi" else "Komentar Normal",
          npMax probs, (npArgmax probs : Int)⟩

/-- One item of the chunk loop of `predict_batch`: empty/whitespace text gets
the neutral default without touching the probability rows; otherwise row `j`
is consumed (`pred_ids[j]`, `confidences[j]`); a missing row is an
`IndexError` inside the `try` — modelled as `none`, which aborts the whole
batch (see `predict_batch`). -/
def chunkItem (probRows : List (List ℚ)) (j : Nat) (text : String) :
    Option PredResult :=
  if pyStrip text.data = [] then some defaultNormal
  else
    match probRows[j]? with
    | none => none
    | some row =>
        some ⟨if npArgmax row = 1 then "Komentar Judi" else "Komentar Normal",
          npMax row, (npArgmax row : Int)⟩

/-- The `for j, text in enumerate(batch)` loop. -/
def chunkResultsAux (probRows : List (List ℚ)) : Nat → List String → Option (List PredResult)
  | _, [] => some []
  | j, t :: ts =>
    match chunkItem probRows j t with
    | none => none
    | some r =>
      match chunkResultsAux probRows (j + 1) ts with
      | none => none
      | some rs => some (r :: rs)

/-- Fueled `for i in range(0, len(texts), batch_size)` loop with batch size
`b + 1`: tokenize/run the model on one chunk (`clsB`), softmax each logits row
(`axis=1`), process the chunk items, recurse on the remaining texts.  Any
`none` (an exception anywhere in the loop) propagates. -/
def runChunksGo (clsB : List String → Option (List (List ℚ)))
    (pyexp : ℚ → ℚ) (b : Nat) : Nat → List String → Option (List PredResult)
  | 0, _ => some []
  | _ + 1, [] => some []
  | fuel + 1, t :: ts =>
    match clsB ((t :: ts).take (b + 1)) with
    | none => none
    | some rows =>
      match chunkResultsAux (rows.map (softmax pyexp)) 0 ((t :: ts).take (b + 1)) with
      | none => none
      | some rs =>
        match runChunksGo clsB pyexp b fuel ((t :: ts).drop (b + 1)) with
        | none => none
        | some rest => some (rs ++ rest)

theorem runChunksGo_eq_len (clsB : List String → Option (List (List ℚ)))
    (pyexp : ℚ → ℚ) (b : Nat) :
    ∀ fuel l, l.length ≤ fuel →
      runChunksGo clsB pyexp b fuel l = runChunksGo clsB pyexp b l.length l := by
  intro fuel
  induction fuel using Nat.strong_induction_on with
  | _ fuel ih =>
    intro l hl
    match fuel, l with
    | 0, l =>
        have h0 : l = [] := List.eq_nil_of_length_eq_zero (Nat.le_zero.mp hl)
        subst h0; rfl
    | fuel + 1, [] => rfl
    | fuel + 1, t :: ts =>
      have hr : ts.length ≤ fuel := by
        simp only [List.length_cons] at hl; omega
      have hx : ((t :: ts).drop (b + 1)).length ≤ ts.length := by
        have h2 := List.length_drop (b + 1) (t :: ts)
        simp only [List.length_cons] at h2
        omega
      simp only [runChunksGo, List.length_cons]
      rw [ih fuel (Nat.lt_succ_self _) _ (le_trans hx hr),
        ih ts.length (by omega) _ hx]

/-- The chunk loop wrapper. -/
def runChunks (clsB : List String → Option (List (List ℚ))) (pyexp : ℚ → ℚ)
    (b : Nat) (texts : List String) : Option (List PredResult) :=
  runChunksGo clsB pyexp b texts.length texts

theorem runChunks_cons (clsB : List String → Option (List (List ℚ)))
    (pyexp : ℚ → ℚ) (b : Nat) (t : String) (ts : List String) :
    runChunks clsB pyexp b (t :: ts) =
      match clsB ((t :: ts).take (b + 1)) with
      | none => none
      | some rows =>
        match chunkResultsAux (rows.map (softmax pyexp)) 0 ((t :: ts).take (b + 1)) with
        | none => none
        | some rs =>
          match runChunks clsB pyexp b ((t :: ts).drop (b + 1)) with
          | none => none
          | some rest => some (rs ++ rest) := by
  show runChunksGo clsB pyexp b (ts.length + 1) (t :: ts) = _
  simp only [runChunksGo]
  rw [runChunksGo_eq_len clsB pyexp b ts.length _ (by
    have h2 := List.length_drop (b + 1) (t :: ts)
    simp only [List.length_cons] at h2
    omega)]
  rfl

/-- `predict_batch`: the `load_model()` guard (`false` → one Error result per
text), `[]` on empty input, then the chunk loop — wrapped in a single
`try/except`, so an exception anywhere (any chunk's model call, a missing row,
or `range`'s `ValueError` when `batch_size == 0`) discards every accumulated
result and returns `len(texts)` copies of the neutral default. -/
def predict_batch (modelLoaded : Bool) (clsB : List String → Option (List (List ℚ)))
    (pyexp : ℚ → ℚ) (batch_size : Nat) (texts : List String) : List PredResult :=
  if modelLoaded = false then List.replicate texts.length errorResult
  else if texts = [] then []
  else if batch_size = 0 then List.replicate texts.length defaultNormal
  else
    match runChunks clsB pyexp (batch_size - 1) texts with
    | some rs => rs
    | none => List.replicate texts.length defaultNormal


/-!
### Claim C4: the lexicon always contains the hand-authored mapping
-/

theorem dictGet_append (d1 d2 : SlangDict) (k : String) :
    dictGet (d1 ++ d2) k =
      match dictGet d1 k with
      | some v => some v
      | none => dictGet d2 k := by
  induction d1 with
  | nil => rfl
  | cons p rest ih =>
      obtain ⟨k', v'⟩ := p
      by_cases h : k' = k
      · simp [dictGet, h]
      · simp only [List.cons_append, dictGet, if_neg h]
        exact ih

/-- C4: `load_slang_dict` always returns a non-empty mapping binding every
hand-authored key to its hand-authored value: on a successful remote fetch the
hand-authored entries override remote entries on key collision, and on any
fetch failure the hand-authored mapping alone is returned (the exception is
caught inside `load_slang_dict`, so no error reaches the caller — the model is
a total function). -/
theorem load_slang_dict_spec :
    ∀ fetch : Option (List HFRow),
      load_slang_dict fetch ≠ [] ∧
      (∀ k v, dictGet kamus_manual k = some v →
        dictGet (load_slang_dict fetch) k = some v) ∧
      load_slang_dict none = kamus_manual := by
  intro fetch
  refine ⟨?_, ?_, rfl⟩
  · have hk : kamus_manual ≠ [] := by decide
    cases fetch with
    | none => exact hk
    | some rows =>
        intro hc
        rw [show load_slang_dict (some rows) = kamus_manual ++ parse_hf rows from rfl,
          List.append_eq_nil] at hc
        exact hk hc.1
  · cases fetch with
    | none => intro k v h; exact h
    | some rows =>
        intro k v h
        show dictGet (kamus_manual ++ parse_hf rows) k = some v
        rw [dictGet_append, h]

theorem load_slang_dict_spec_witness :
    dictGet kamus_manual "yg" = some "yang" ∧
    dictGet (load_slang_dict (some [some "yg: salah", none, some "abc"])) "yg" = some "yang" ∧
    load_slang_dict (some [some "yg: salah", none, some "abc"]) ≠ [] :=
  ⟨by decide,
   (load_slang_dict_spec (some [some "yg: salah", none, some "abc"])).2.1 "yg" "yang" (by decide),
   (load_slang_dict_spec (some [some "yg: salah", none, some "abc"])).1⟩

/-!
### Claim C1: batch/single equivalence
-/

/-- C1: for every fetch outcome of the slang dictionary (successful remote
load or fallback), every list of texts and every index, the batch transform
agrees element-wise with the single transform. -/
theorem preprocess_batch_single_equiv :
    ∀ (fetch : Option (List HFRow)) (texts : List String) (i : Nat) (t : String),
      texts[i]? = some t →
      (preprocess_teks_batch fetch texts)[i]? = some (preprocess_teks fetch t) := by
  intro fetch texts i t h
  unfold preprocess_teks_batch
  split
  · rename_i he; subst he; simp at h
  · rw [List.getElem?_map, h]; rfl

theorem preprocess_batch_single_equiv_witness :
    (["gpp", "yg"] : List String)[1]? = some "yg" ∧
    (preprocess_teks_batch none ["gpp", "yg"])[1]? = some (preprocess_teks none "yg") :=
  ⟨by decide, preprocess_batch_single_equiv none ["gpp", "yg"] 1 "yg" (by decide)⟩

/-!
### Claim C8: totality, whitespace-only input, batch length
-/

theorem isPySpace_cases {c : Char} (h : isPySpace c = true) :
    c = ' ' ∨ c = '\t' ∨ c = '\n' ∨ c = '\r' ∨ c = '\x0b' ∨ c = '\x0c' := by
  simp [isPySpace] at h
  tauto

theorem isPySpace_ascii {c : Char} (h : isPySpace c = true) : c.toNat < 128 := by
  rcases isPySpace_cases h with h1 | h1 | h1 | h1 | h1 | h1 <;> subst h1 <;> decide

theorem isPySpace_lower {c : Char} (h : isPySpace c = true) : pyLower c = c := by
  rcases isPySpace_cases h with h1 | h1 | h1 | h1 | h1 | h1 <;> subst h1 <;> decide

theorem stripEmojiNames_id {l : List Char} (h : ∀ c ∈ l, c ≠ ':') :
    stripEmojiNames l = l := by
  induction l with
  | nil => rfl
  | cons c rest ih =>
      rw [stripEmojiNames_cons, if_neg, ih (fun x hx => h x (List.mem_cons_of_mem c hx))]
      intro hc
      exact h c (List.mem_cons_self c rest) hc.1

theorem containsHttp_no_h {l : List Char} (h : ∀ c ∈ l, c ≠ 'h') :
    containsHttp l = false := by
  induction l with
  | nil => rfl
  | cons c rest ih =>
      rw [containsHttp, if_neg, ih (fun x hx => h x (List.mem_cons_of_mem c hx))]
      intro hc
      exact h c (List.mem_cons_self c rest) hc.1

theorem stripUrls_id {l : List Char} (h : containsHttp l = false) :
    stripUrls l = l := by
  induction l with
  | nil => rfl
  | cons c rest ih =>
      rw [containsHttp] at h
      by_cases hc : c = 'h' ∧ rest.take 3 = ['t', 't', 'p']
      · rw [if_pos hc] at h
        exact absurd h (by simp)
      · rw [if_neg hc] at h
        rw [stripUrls_cons, if_neg, ih h]
        intro hcc
        exact hc ⟨hcc.1, hcc.2.1⟩

theorem stripMentions_id {l : List Char} (h : ∀ c ∈ l, c ≠ '@' ∧ c ≠ '#') :
    stripMentions l = l := by
  induction l with
  | nil => rfl
  | cons c rest ih =>
      rw [stripMentions_cons, if_neg, ih (fun x hx => h x (List.mem_cons_of_mem c hx))]
      intro hc
      rcases hc.1 with h1 | h1
      · exact (h c (List.mem_cons_self c rest)).1 h1
      · exact (h c (List.mem_cons_self c rest)).2 h1

theorem map_id_of {α : Type} {f : α → α} :
    ∀ {l : List α}, (∀ c ∈ l, f c = c) → l.map f = l
  | [], _ => rfl
  | c :: rest, h => by
      rw [List.map_cons, h c (List.mem_cons_self c rest),
        map_id_of (fun x hx => h x (List.mem_cons_of_mem c hx))]

theorem symbolsToSpace_id {l : List Char}
    (h : ∀ c ∈ l, isWordChar c = true ∨ isPySpace c = true) :
    symbolsToSpace l = l := by
  unfold symbolsToSpace
  apply map_id_of
  intro c hc
  rcases h c hc with h1 | h1 <;> simp [h1]

theorem stripNumbersAux_nodigit {l : List Char}
    (h : ∀ c ∈ l, isAsciiDigit c = false) :
    ∀ p, stripNumbersAux p l = l := by
  induction l with
  | nil => intro p; rfl
  | cons c rest ih =>
      intro p
      rw [stripNumbersAux_cons, if_neg, ih (fun x hx => h x (List.mem_cons_of_mem c hx))]
      intro hc
      rw [h c (List.mem_cons_self c rest)] at hc
      exact Bool.false_ne_true hc.1

theorem collapseSpaces_allspace {l : List Char} (h : ∀ c ∈ l, isPySpace c = true) :
    collapseSpaces l = if l = [] then [] else [' '] := by
  cases l with
  | nil => rfl
  | cons c rest =>
      rw [collapseSpaces_cons, if_pos (h c (List.mem_cons_self c rest))]
      rw [List.dropWhile_eq_nil_iff.mpr (fun x hx => h x (List.mem_cons_of_mem c hx))]
      simp only [List.cons_ne_nil, if_neg]
      rfl

/-- C8: `preprocess_teks_batch` always returns exactly one result per input,
and `preprocess_teks` maps empty or whitespace-only input to the empty string.
(The embedding is a total function for every string and every fetch outcome —
the source never raises for data reasons: non-string input is coerced by
`str()` before any transform.) -/
theorem preprocess_total_spec :
    (∀ (fetch : Option (List HFRow)) (texts : List String),
      (preprocess_teks_batch fetch texts).length = texts.length) ∧
    (∀ (fetch : Option (List HFRow)) (s : String),
      (∀ c ∈ s.data, isPySpace c = true) → preprocess_teks fetch s = "") := by
  constructor
  · intro fetch texts
    unfold preprocess_teks_batch
    split
    · rename_i he; subst he; rfl
    · exact List.length_map texts _
  · intro fetch s h
    unfold preprocess_teks
    have h1 : normalisasi_unicode s.data = s.data := by
      unfold normalisasi_unicode
      rw [List.filter_eq_self]
      intro c hc
      simpa using isPySpace_ascii (h c hc)
    rw [h1]
    have h2 : s.data.map pyLower = s.data :=
      map_id_of (fun c hc => isPySpace_lower (h c hc))
    unfold clean_text
    rw [h2]
    rw [stripEmojiNames_id (fun c hc hcc => by
      have := isPySpace_cases (h c hc); subst hcc; simp at this)]
    rw [stripUrls_id (containsHttp_no_h (fun c hc hcc => by
      have := isPySpace_cases (h c hc); subst hcc; simp at this))]
    rw [stripMentions_id (fun c hc => ⟨fun hcc => by
      have := isPySpace_cases (h c hc); subst hcc; simp at this,
      fun hcc => by have := isPySpace_cases (h c hc); subst hcc; simp at this⟩)]
    rw [symbolsToSpace_id (fun c hc => Or.inr (h c hc))]
    unfold stripNumbers
    rw [stripNumbersAux_nodigit (fun c hc => by
      rcases isPySpace_cases (h c hc) with h1 | h1 | h1 | h1 | h1 | h1 <;>
        subst h1 <;> decide) false]
    rw [collapseSpaces_allspace h]
    by_cases he : s.data = []
    · rw [if_pos he]; rfl
    · rw [if_neg he]; rfl

theorem preprocess_total_spec_witness :
    (∀ c ∈ ("  \t " : String).data, isPySpace c = true) ∧
    preprocess_teks none "  \t " = "" ∧
    (preprocess_teks_batch none ["a", " ", "bc"]).length = 3 :=
  ⟨by decide, preprocess_total_spec.2 none "  \t " (by decide),
   preprocess_total_spec.1 none ["a", " ", "bc"]⟩

/-!
### Claim C7: token-wise slang substitution
-/

/-- C7: `replace_slang` rewrites each whitespace token independently in a
single pass (first conjunct — a replacement is never looked up again); an
exact lexicon match is replaced wholesale (second); a token made of a
word-character core followed by trailing non-word characters whose core
matches is replaced by the canonical form with the trailing characters
re-appended (third); a token with no match either way is kept (fourth). -/
theorem replace_slang_token_spec :
    (∀ (kamus : SlangDict) (text : List Char),
      replace_slang kamus text =
        pyJoin ((pySplit text).map (substituteToken kamus))) ∧
    (∀ (kamus : SlangDict) (w : List Char) (v : String),
      dictGet kamus (String.mk w) = some v → substituteToken kamus w = v.data) ∧
    (∀ (kamus : SlangDict) (core punct : List Char) (v : String),
      dictGet kamus (String.mk (core ++ punct)) = none →
      (∀ c ∈ core, isWordChar c = true) →
      (∀ c ∈ punct, isWordChar c = false) →
      dictGet kamus (String.mk core) = some v →
      substituteToken kamus (core ++ punct) = v.data ++ punct) ∧
    (∀ (kamus : SlangDict) (w : List Char),
      dictGet kamus (String.mk w) = none →
      dictGet kamus (String.mk (w.filter isWordChar)) = none →
      substituteToken kamus w = w) := by
  refine ⟨fun kamus text => rfl, ?_, ?_, ?_⟩
  · intro kamus w v h
    unfold substituteToken
    rw [h]
  · intro kamus core punct v hmiss hcore hpunct hcorehit
    have hfil : (core ++ punct).filter isWordChar = core := by
      rw [List.filter_append, List.filter_eq_self.mpr hcore]
      rw [List.filter_eq_nil_iff.mpr (fun c hc => by simp [hpunct c hc])]
      exact List.append_nil core
    unfold substituteToken
    rw [hmiss, hfil, hcorehit, List.drop_left]
  · intro kamus w hmiss hmiss2
    unfold substituteToken
    rw [hmiss, hmiss2]

theorem replace_slang_token_spec_witness :
    dictGet kamus_manual (String.mk ("yg".toList ++ ",".toList)) = none ∧
    dictGet kamus_manual (String.mk "yg".toList) = some "yang" ∧
    substituteToken kamus_manual ("yg".toList ++ ",".toList) = "yang".data ++ ",".toList :=
  ⟨by decide, by decide,
   replace_slang_token_spec.2.2.1 kamus_manual "yg".toList ",".toList "yang"
     (by decide) (by decide) (by decide) (by decide)⟩

/-!
### Claim C6: repeated-character collapse in `clean_text`
-/

/-- The claim's description of pass 7, stated run-wise: each maximal run of an
identical word character of length at least 3 becomes a single occurrence;
every other run (length at most 2, or a non-word character) is kept as is. -/
def collapseRunsSpec : List Char → List Char
  | [] => []
  | c :: rest =>
    (if isWordChar c = true ∧ 3 ≤ (c :: rest.takeWhile (fun x => x = c)).length
     then [c] else c :: rest.takeWhile (fun x => x = c)) ++
      collapseRunsSpec (rest.dropWhile (fun x => x = c))
termination_by l => l.length
decreasing_by
  have := dropWhile_len_le (fun x => decide (x = c)) rest
  simp only [List.length_cons]
  omega

theorem collapseRunsSpec_short (c : Char) (rest : List Char)
    (h : ¬(isWordChar c = true ∧ 2 ≤ (rest.takeWhile (fun x => x = c)).length)) :
    collapseRunsSpec rest =
      rest.takeWhile (fun x => x = c) ++
        collapseRunsSpec (rest.dropWhile (fun x => x = c)) := by
  cases rest with
  | nil => rfl
  | cons d rest2 =>
      by_cases hd : d = c
      · subst hd
        conv_lhs => rw [collapseRunsSpec]
        rw [if_neg]
        · rw [List.takeWhile_cons, List.dropWhile_cons]
          simp
        · intro hcond
          apply h
          refine ⟨hcond.1, ?_⟩
          rw [List.takeWhile_cons]
          simp only [List.length_cons] at hcond ⊢
          simp
          omega
      · rw [List.takeWhile_cons, List.dropWhile_cons]
        have hdec : (decide (d = c)) = false := by simp [hd]
        simp only [hdec, Bool.false_eq_true, if_false, List.nil_append]

theorem collapseRepeats_eq_runs : ∀ l : List Char, collapseRepeats l = collapseRunsSpec l := by
  suffices H : ∀ n (l : List Char), l.length ≤ n → collapseRepeats l = collapseRunsSpec l from
    fun l => H l.length l (le_refl _)
  intro n
  induction n with
  | zero =>
      intro l hl
      have h0 : l = [] := List.eq_nil_of_length_eq_zero (Nat.le_zero.mp hl)
      subst h0; simp [collapseRunsSpec]; rfl
  | succ n ih =>
      intro l hl
      cases l with
      | nil => simp [collapseRunsSpec]; rfl
      | cons c rest =>
          simp only [List.length_cons] at hl
          by_cases hw : isWordChar c = true ∧ 2 ≤ (rest.takeWhile (fun x => x = c)).length
          · rw [collapseRepeats_cons, if_pos hw]
            conv_rhs => rw [collapseRunsSpec]
            rw [if_pos ⟨hw.1, by simp only [List.length_cons]; omega⟩]
            rw [ih (rest.dropWhile (fun x => x = c)) (by
              have := dropWhile_len_le (fun x => decide (x = c)) rest; omega)]
            rfl
          · rw [collapseRepeats_cons, if_neg hw]
            conv_rhs => rw [collapseRunsSpec]
            rw [if_neg (fun hcond => hw ⟨hcond.1, by
              have := hcond.2; simp only [List.length_cons] at this; omega⟩)]
            rw [ih rest (by omega), collapseRunsSpec_short c rest hw]
            rfl

/-- C6: in `clean_text`, the repeated-character pass collapses every maximal
run of the same word character of length 3 or more to a single occurrence and
leaves every shorter run (and non-word characters) unchanged; in particular
`clean_text` maps "baguuuus" to "bagus" and preserves "gpp". -/
theorem clean_text_repeat_collapse :
    (∀ l : List Char, collapseRepeats l = collapseRunsSpec l) ∧
    clean_text "baguuuus".toList = "bagus".toList ∧
    clean_text "gpp".toList = "gpp".toList :=
  ⟨collapseRepeats_eq_runs, by decide, by decide⟩

/-!
### Claim C5: letter-despacing (`combine_character`)
-/

/-- A run of single letters separated by single whitespace characters:
`letter (ws letter)*`. -/
def isLetterWsRun : List Char → Bool
  | [] => false
  | [c] => isAsciiLetter c
  | c :: s :: rest => isAsciiLetter c && isPySpace s && isLetterWsRun rest

/-- Shape of a `takePairs` prefix: `(letter ws)*`. -/
def pairsOk : List Char → Bool
  | [] => true
  | [_] => false
  | c :: s :: rest => isAsciiLetter c && isPySpace s && pairsOk rest

theorem takePairs_shape : ∀ l : List Char, pairsOk (takePairs l).1 = true := by
  intro l
  induction l using takePairs.induct with
  | case1 a s rest h ih => simp [takePairs, h, pairsOk, ih, h.1, h.2]
  | case2 a s rest h => simp [takePairs, h, pairsOk]
  | case3 other h => simp [takePairs, pairsOk]

theorem pairsOk_append : ∀ pp : List Char, pairsOk pp = true →
    ∀ x, isAsciiLetter x = true → isLetterWsRun (pp ++ [x]) = true
  | [], _, x, hx => by simp [isLetterWsRun, hx]
  | [c], h, _, _ => by simp [pairsOk] at h
  | c :: s :: rest, h, x, hx => by
      simp only [pairsOk, Bool.and_eq_true] at h
      simp only [List.cons_append, isLetterWsRun, Bool.and_eq_true]
      exact ⟨⟨h.1.1, h.1.2⟩, pairsOk_append rest h.2 x hx⟩

theorem pairsOk_dropLast : ∀ pp : List Char, pairsOk pp = true → pp ≠ [] →
    isLetterWsRun pp.dropLast = true
  | [], _, hne => absurd rfl hne
  | [c], h, _ => by simp [pairsOk] at h
  | [c, s], h, _ => by
      simp only [pairsOk, Bool.and_eq_true] at h
      simp [isLetterWsRun, h.1.1]
  | c :: s :: r :: rs, h, _ => by
      simp only [pairsOk, Bool.and_eq_true] at h
      have hrec := pairsOk_dropLast (r :: rs) h.2 (List.cons_ne_nil r rs)
      have hd : (c :: s :: r :: rs).dropLast = c :: s :: (r :: rs).dropLast := rfl
      rw [hd]
      cases hh : (r :: rs).dropLast with
      | nil =>
          rw [hh] at hrec
          simp [isLetterWsRun] at hrec
      | cons u us =>
          rw [hh] at hrec
          simp only [isLetterWsRun, Bool.and_eq_true]
          exact ⟨⟨h.1.1, h.1.2⟩, hrec⟩

theorem pairsOk_len_even : ∀ pp : List Char, pairsOk pp = true → pp.length % 2 = 0
  | [], _ => rfl
  | [c], h => by simp [pairsOk] at h
  | c :: s :: rest, h => by
      simp only [pairsOk, Bool.and_eq_true] at h
      have := pairsOk_len_even rest h.2
      simp only [List.length_cons]
      omega

theorem findRuns_matches :
    ∀ (n : Nat) (l : List Char), l.length ≤ n → ∀ (p : Bool) (m : List Char),
      m ∈ findRuns p l → isLetterWsRun m = true ∧ 5 ≤ m.length := by
  intro n
  induction n with
  | zero =>
      intro l hl p m hm
      have h0 : l = [] := List.eq_nil_of_length_eq_zero (Nat.le_zero.mp hl)
      subst h0; simp [findRuns, findRunsGo] at hm
  | succ n ih =>
      intro l hl p m hm
      cases l with
      | nil => simp [findRuns, findRunsGo] at hm
      | cons c rest =>
          simp only [List.length_cons] at hl
          have htp := takePairs_len (c :: rest)
          simp only [List.length_cons] at htp
          have hshape := takePairs_shape (c :: rest)
          rw [findRuns_cons] at hm
          split at hm
          · rename_i hcp
            split at hm
            · rename_i hnil
              have hd0 : (takePairs (c :: rest)).2.length = 0 := by rw [hnil]; rfl
              split at hm
              · rename_i hsix
                rcases List.mem_cons.mp hm with hm1 | hm2
                · subst hm1
                  constructor
                  · exact pairsOk_dropLast _ hshape (by
                      intro h0; rw [h0] at hsix; simp at hsix)
                  · have := List.length_dropLast (takePairs (c :: rest)).1
                    omega
                · exact ih _ (by
                    simp only [List.length_cons, List.length_nil]; omega) _ _ hm2
              · exact ih _ (by omega) _ _ hm
            · rename_i hnotnil
              split at hm
              · rename_i hxb
                split at hm
                · rename_i hfour
                  rcases List.mem_cons.mp hm with hm1 | hm2
                  · subst hm1
                    cases hr2 : (takePairs (c :: rest)).2 with
                    | nil => exact absurd hr2 hnotnil
                    | cons x r2 =>
                        rw [hr2] at hxb
                        simp only [List.headD_cons] at hxb ⊢
                        constructor
                        · exact pairsOk_append _ hshape x hxb.1
                        · rw [List.length_append]
                          simp only [List.length_cons, List.length_nil]
                          omega
                  · have h2 := List.length_tail (takePairs (c :: rest)).2
                    exact ih _ (by omega) _ _ hm2
                · exact ih _ (by omega) _ _ hm
              · split at hm
                · rename_i hsix
                  rcases List.mem_cons.mp hm with hm1 | hm2
                  · subst hm1
                    constructor
                    · exact pairsOk_dropLast _ hshape (by
                        intro h0; rw [h0] at hsix; simp at hsix)
                    · have := List.length_dropLast (takePairs (c :: rest)).1
                      omega
                  · exact ih _ (by simp only [List.length_cons]; omega) _ _ hm2
                · exact ih _ (by omega) _ _ hm
          · exact ih _ (by omega) _ _ hm

/-- C5 counterexample: `combine_character` does NOT leave every non-run part
of the text unchanged.  In `"a b c ka b c"` the only regex match is
`"a b c"` (the letters of `"ka b c"` are not all single); but
`str.replace` rewrites every occurrence of the matched substring, so the tail
becomes `"kabc"`, where the claim requires the tail `"ka b c"` to stay. -/
theorem combine_character_nonlocal :
    combine_character ("a b c ka b c".toList) = "abc kabc".toList ∧
    "abc kabc".toList ≠ "abc ka b c".toList := by decide

/-- C5 (amended): every substring matched by the despacing pattern is a run of
at least 3 single letters each separated by one whitespace character (a
2-letter run is never matched: `isLetterWsRun` with length ≥ 5 means ≥ 3
letters), and `combine_character` deletes the spaces of every occurrence of
each matched substring — a textual whole-string replacement, so occurrences
outside the matched run are despaced too.  The spec's example despaces, and a
lone 2-letter run is untouched. -/
theorem combine_character_spec :
    (∀ (p : Bool) (l m : List Char), m ∈ findRuns p l →
      isLetterWsRun m = true ∧ 5 ≤ m.length) ∧
    (∀ l : List Char, combine_character l =
      (findRuns false l).foldl
        (fun t m => replaceAll m (m.filter (fun c => c ≠ ' ')) t) l) ∧
    combine_character ("p r o m o judi".toList) = "promo judi".toList ∧
    combine_character ("a a".toList) = "a a".toList :=
  ⟨fun p l m hm => findRuns_matches l.length l (le_refl _) p m hm,
   fun _ => rfl, by decide, by decide⟩

theorem combine_character_spec_witness :
    ("p r o m o".toList ∈ findRuns false ("p r o m o judi".toList)) ∧
    (isLetterWsRun "p r o m o".toList = true ∧ 5 ≤ "p r o m o".toList.length) :=
  ⟨by decide,
   combine_character_spec.1 false ("p r o m o judi".toList) ("p r o m o".toList) (by decide)⟩

/-!
### Claim C9: fixed point on already-clean text
-/

/-- The claim's character class for already-cleaned text: lowercase ASCII
letters, ASCII digits, or the space character. -/
def isCleanChar (c : Char) : Bool :=
  ('a' ≤ c && c ≤ 'z') || ('0' ≤ c && c ≤ '9') || c = ' '

/-- Three identical consecutive characters somewhere in the text. -/
def hasTriple : List Char → Bool
  | a :: b :: c :: rest => (a = b && b = c) || hasTriple (b :: c :: rest)
  | _ => false

/-- A token that is one single alphabetic character. -/
def isSingleLetter : List Char → Bool
  | [c] => isAsciiLetter c
  | _ => false

/-- Three consecutive single-letter tokens somewhere in the token list. -/
def has3SingleLetters : List (List Char) → Bool
  | a :: b :: c :: rest =>
      (isSingleLetter a && isSingleLetter b && isSingleLetter c) ||
        has3SingleLetters (b :: c :: rest)
  | _ => false

theorem mem_takeWhile_facts {α : Type} {p : α → Bool} :
    ∀ {l : List α} {x : α}, x ∈ l.takeWhile p → p x = true ∧ x ∈ l := by
  intro l
  induction l with
  | nil => intro x hx; simp at hx
  | cons a l' ih =>
      intro x hx
      rw [List.takeWhile_cons] at hx
      by_cases hp : p a = true
      · rw [if_pos hp] at hx
        rcases List.mem_cons.mp hx with h1 | h2
        · rw [h1]; exact ⟨hp, List.mem_cons_self a l'⟩
        · exact ⟨(ih h2).1, List.mem_cons_of_mem a (ih h2).2⟩
      · rw [if_neg hp] at hx; simp at hx
  
theorem mem_dropWhile_mem {α : Type} {p : α → Bool} :
    ∀ {l : List α} {x : α}, x ∈ l.dropWhile p → x ∈ l := by
  intro l
  induction l with
  | nil => intro x hx; simp at hx
  | cons a l' ih =>
      intro x hx
      rw [List.dropWhile_cons] at hx
      by_cases hp : p a = true
      · rw [if_pos hp] at hx
        exact List.mem_cons_of_mem a (ih hx)
      · rw [if_neg hp] at hx
        exact hx

theorem pySplit_tokens :
    ∀ (n : Nat) (l : List Char), l.length ≤ n → ∀ w ∈ pySplit l,
      w ≠ [] ∧ (∀ c ∈ w, isPySpace c = false) ∧ (∀ c ∈ w, c ∈ l) := by
  intro n
  induction n with
  | zero =>
      intro l hl w hw
      have h0 : l = [] := List.eq_nil_of_length_eq_zero (Nat.le_zero.mp hl)
      subst h0; simp [pySplit, pySplitGo] at hw
  | succ n ih =>
      intro l hl w hw
      cases l with
      | nil => simp [pySplit, pySplitGo] at hw
      | cons c rest =>
          simp only [List.length_cons] at hl
          rw [pySplit_cons] at hw
          split at hw
          · have h3 := ih rest (by omega) w hw
            exact ⟨h3.1, h3.2.1, fun x hx => List.mem_cons_of_mem c (h3.2.2 x hx)⟩
          · rename_i hcs
            rcases List.mem_cons.mp hw with hw1 | hw2
            · subst hw1
              refine ⟨List.cons_ne_nil _ _, ?_, ?_⟩
              · intro x hx
                rcases List.mem_cons.mp hx with h1 | h2
                · subst h1
                  cases hb : isPySpace x
                  · rfl
                  · exact absurd hb hcs
                · have := (mem_takeWhile_facts h2).1
                  simp only [Bool.not_eq_eq_eq_not, Bool.not_true] at this
                  simpa using this
              · intro x hx
                rcases List.mem_cons.mp hx with h1 | h2
                · subst h1; exact List.mem_cons_self x rest
                · exact List.mem_cons_of_mem c (mem_takeWhile_facts h2).2
            · have hlen := dropWhile_len_le (fun x => !isPySpace x) rest
              have h3 := ih (rest.dropWhile (fun x => !isPySpace x)) (by omega) w hw2
              exact ⟨h3.1, h3.2.1,
                fun x hx => List.mem_cons_of_mem c (mem_dropWhile_mem (h3.2.2 x hx))⟩

theorem cc_ranges {c : Char} (h : isCleanChar c = true) :
    (97 ≤ c.toNat ∧ c.toNat ≤ 122) ∨ (48 ≤ c.toNat ∧ c.toNat ≤ 57) ∨ c = ' ' := by
  simp only [isCleanChar, Bool.or_eq_true, Bool.and_eq_true, decide_eq_true_eq] at h
  rcases h with (⟨h1, h2⟩ | ⟨h1, h2⟩) | h1
  · exact Or.inl ⟨h1, h2⟩
  · exact Or.inr (Or.inl ⟨h1, h2⟩)
  · exact Or.inr (Or.inr h1)

theorem cc_ascii {c : Char} (h : isCleanChar c = true) : c.toNat < 128 := by
  rcases cc_ranges h with ⟨h1, h2⟩ | ⟨h1, h2⟩ | h1
  · omega
  · omega
  · subst h1; decide

theorem cc_lower {c : Char} (h : isCleanChar c = true) : pyLower c = c := by
  rcases cc_ranges h with ⟨h1, h2⟩ | ⟨h1, h2⟩ | h1
  · unfold pyLower
    rw [if_neg]
    simp only [Bool.and_eq_true, decide_eq_true_eq]
    intro hc
    have h3 : c.toNat ≤ 90 := hc.2
    omega
  · unfold pyLower
    rw [if_neg]
    simp only [Bool.and_eq_true, decide_eq_true_eq]
    intro hc
    have h3 : 65 ≤ c.toNat := hc.1
    omega
  · subst h1; decide

theorem cc_ne_special {c : Char} (h : isCleanChar c = true) :
    c ≠ ':' ∧ c ≠ '@' ∧ c ≠ '#' := by
  refine ⟨fun he => ?_, fun he => ?_, fun he => ?_⟩ <;>
    (subst he; exact absurd h (by decide))

theorem cc_word_or_space {c : Char} (h : isCleanChar c = true) :
    isWordChar c = true ∨ c = ' ' := by
  rcases cc_ranges h with ⟨h1, h2⟩ | ⟨h1, h2⟩ | h1
  · refine Or.inl ?_
    simp only [isWordChar, isAsciiLetter, Bool.or_eq_true, Bool.and_eq_true,
      decide_eq_true_eq]
    exact Or.inl (Or.inl (Or.inl ⟨h1, h2⟩))
  · refine Or.inl ?_
    simp only [isWordChar, isAsciiLetter, isAsciiDigit, Bool.or_eq_true,
      Bool.and_eq_true, decide_eq_true_eq]
    exact Or.inl (Or.inr ⟨h1, h2⟩)
  · exact Or.inr h1

theorem word_not_space {c : Char} (h : isWordChar c = true) : isPySpace c = false := by
  cases hs : isPySpace c
  · rfl
  · rcases isPySpace_cases hs with h1 | h1 | h1 | h1 | h1 | h1 <;>
      (subst h1; exact absurd h (by decide))

theorem cc_space_iff {c : Char} (h : isCleanChar c = true) :
    isPySpace c = true ↔ c = ' ' := by
  constructor
  · intro hs
    rcases isPySpace_cases hs with h1 | h1 | h1 | h1 | h1 | h1
    · exact h1
    all_goals (subst h1; exact absurd h (by decide))
  · intro h1; subst h1; decide

theorem dropWhile_append_of_ne_nil {p : Char → Bool} :
    ∀ {l : List Char} (r : List Char), l.dropWhile p ≠ [] →
      (l ++ r).dropWhile p = l.dropWhile p ++ r := by
  intro l
  induction l with
  | nil => intro r h; exact absurd rfl h
  | cons a l' ih =>
      intro r h
      by_cases hp : p a = true
      · simp only [List.dropWhile_cons, if_pos hp] at h ⊢
        simp only [List.cons_append, List.dropWhile_cons, if_pos hp]
        exact ih r h
      · simp only [List.dropWhile_cons, if_neg hp] at h
        simp only [List.cons_append, List.dropWhile_cons, if_neg hp]

theorem head_dropWhile_false {p : Char → Bool} :
    ∀ {l : List Char} {d : Char} {ds : List Char},
      l.dropWhile p = d :: ds → p d = false := by
  intro l
  induction l with
  | nil => intro d ds h; simp at h
  | cons a l' ih =>
      intro d ds h
      rw [List.dropWhile_cons] at h
      by_cases hp : p a = true
      · rw [if_pos hp] at h; exact ih h
      · rw [if_neg hp] at h
        injection h with h1 _
        subst h1
        cases hb : p a
        · rfl
        · exact absurd hb hp

theorem stripNums_passthrough :
    ∀ (l rest : List Char), (∀ c ∈ l, isWordChar c = true) →
      stripNumbersAux true (l ++ rest) = l ++ stripNumbersAux true rest := by
  intro l
  induction l with
  | nil => intro rest _; rfl
  | cons c l' ih =>
      intro rest h
      rw [List.cons_append, stripNumbersAux_cons, if_neg (by simp)]
      rw [h c (List.mem_cons_self c l')]
      rw [ih rest (fun x hx => h x (List.mem_cons_of_mem c hx))]
      rfl

theorem stripNums_token :
    ∀ (tok rest : List Char), tok ≠ [] →
      (∀ c ∈ tok, isWordChar c = true) →
      ¬(∀ c ∈ tok, isAsciiDigit c = true) →
      stripNumbersAux false (tok ++ rest) = tok ++ stripNumbersAux true rest := by
  intro tok rest hne hword hnum
  cases tok with
  | nil => exact absurd rfl hne
  | cons c tl =>
      by_cases hd : isAsciiDigit c = true
      · have hx : ∃ x ∈ tl, isAsciiDigit x = false := by
          by_contra hno
          push_neg at hno
          apply hnum
          intro x hxm
          rcases List.mem_cons.mp hxm with h1 | h2
          · subst h1; exact hd
          · have := hno x h2
            cases hb : isAsciiDigit x
            · exact absurd hb this
            · rfl
        have htl_ne : tl.dropWhile isAsciiDigit ≠ [] := by
          intro h0
          obtain ⟨x, hxm, hxd⟩ := hx
          have := List.dropWhile_eq_nil_iff.mp h0 x hxm
          rw [hxd] at this
          exact Bool.false_ne_true this
        obtain ⟨d, ds, hdw⟩ : ∃ d ds, tl.dropWhile isAsciiDigit = d :: ds := by
          cases hcase : tl.dropWhile isAsciiDigit with
          | nil => exact absurd hcase htl_ne
          | cons d ds => exact ⟨d, ds, rfl⟩
        have hdword : isWordChar d = true := by
          apply hword
          exact List.mem_cons_of_mem c (mem_dropWhile_mem (hdw ▸ List.mem_cons_self d ds))
        rw [List.cons_append, stripNumbersAux_cons,
          if_pos ⟨hd, rfl⟩, dropWhile_append_of_ne_nil rest htl_ne, hdw]
        rw [if_neg (by simp [hdword])]
        rw [stripNums_passthrough tl rest (fun x hx => hword x (List.mem_cons_of_mem c hx))]
        rfl
      · rw [List.cons_append, stripNumbersAux_cons, if_neg (fun hcc => hd hcc.1)]
        rw [hword c (List.mem_cons_self c tl)]
        rw [stripNums_passthrough tl rest (fun x hx => hword x (List.mem_cons_of_mem c hx))]
        rfl

theorem stripNums_join :
    ∀ tokens : List (List Char),
      (∀ w ∈ tokens, w ≠ [] ∧ ∀ c ∈ w, isWordChar c = true) →
      (∀ w ∈ tokens, ¬(∀ c ∈ w, isAsciiDigit c = true)) →
      stripNumbersAux false (pyJoin tokens) = pyJoin tokens := by
  intro tokens
  induction tokens with
  | nil => intro _ _; rfl
  | cons t ts ih =>
      intro hwf hnum
      have hth := hwf t (List.mem_cons_self t ts)
      cases ts with
      | nil =>
          show stripNumbersAux false t = t
          rw [← List.append_nil t]
          rw [stripNums_token t [] hth.1 hth.2 (hnum t (List.mem_cons_self t []))]
          rfl
      | cons v ts' =>
          show stripNumbersAux false (t ++ ' ' :: pyJoin (v :: ts')) = t ++ ' ' :: pyJoin (v :: ts')
          rw [stripNums_token t (' ' :: pyJoin (v :: ts')) hth.1 hth.2
            (hnum t (List.mem_cons_self t (v :: ts')))]
          rw [stripNumbersAux_cons, if_neg (by simp)]
          rw [show isWordChar ' ' = false from rfl]
          rw [ih (fun w hw => hwf w (List.mem_cons_of_mem t hw))
            (fun w hw => hnum w (List.mem_cons_of_mem t hw))]

theorem collapseSpaces_passthrough :
    ∀ (l rest : List Char), (∀ c ∈ l, isPySpace c = false) →
      collapseSpaces (l ++ rest) = l ++ collapseSpaces rest := by
  intro l
  induction l with
  | nil => intro rest _; rfl
  | cons c l' ih =>
      intro rest h
      rw [List.cons_append, collapseSpaces_cons,
        if_neg (by rw [h c (List.mem_cons_self c l')]; exact Bool.false_ne_true)]
      rw [ih rest (fun x hx => h x (List.mem_cons_of_mem c hx))]
      rfl

theorem pyJoin_head_nonspace :
    ∀ (v : List Char) (ts : List (List Char)), v ≠ [] →
      (∀ c ∈ v, isPySpace c = false) →
      (pyJoin (v :: ts)).dropWhile isPySpace = pyJoin (v :: ts) := by
  intro v ts hv hs
  cases v with
  | nil => exact absurd rfl hv
  | cons hv0 tv =>
      have hns : isPySpace hv0 = false := hs hv0 (List.mem_cons_self hv0 tv)
      cases ts with
      | nil =>
          show (hv0 :: tv).dropWhile isPySpace = hv0 :: tv
          rw [List.dropWhile_cons, if_neg (by rw [hns]; exact Bool.false_ne_true)]
      | cons w ws =>
          show ((hv0 :: tv) ++ ' ' :: pyJoin (w :: ws)).dropWhile isPySpace = _
          rw [List.cons_append, List.dropWhile_cons,
            if_neg (by rw [hns]; exact Bool.false_ne_true)]
          rfl

theorem collapseSpaces_join :
    ∀ tokens : List (List Char),
      (∀ w ∈ tokens, w ≠ [] ∧ ∀ c ∈ w, isPySpace c = false) →
      collapseSpaces (pyJoin tokens) = pyJoin tokens := by
  intro tokens
  induction tokens with
  | nil => intro _; rfl
  | cons t ts ih =>
      intro hwf
      have hth := hwf t (List.mem_cons_self t ts)
      cases ts with
      | nil =>
          show collapseSpaces t = t
          rw [← List.append_nil t, collapseSpaces_passthrough t [] hth.2]
          rfl
      | cons v ts' =>
          have hvh := hwf v (List.mem_cons_of_mem t (List.mem_cons_self v ts'))
          show collapseSpaces (t ++ ' ' :: pyJoin (v :: ts')) = t ++ ' ' :: pyJoin (v :: ts')
          rw [collapseSpaces_passthrough t _ hth.2]
          rw [collapseSpaces_cons, if_pos (by decide)]
          rw [pyJoin_head_nonspace v ts' hvh.1 hvh.2]
          rw [ih (fun w hw => hwf w (List.mem_cons_of_mem t hw))]

theorem getLast?_mem_own :
    ∀ (l : List Char) (c : Char), l.getLast? = some c → c ∈ l
  | [], c => by simp
  | [a], c => by
      intro h
      simp only [List.getLast?_singleton, Option.some.injEq] at h
      subst h
      exact List.mem_cons_self a []
  | a :: b :: l', c => by
      intro h
      rw [List.getLast?_cons_cons] at h
      exact List.mem_cons_of_mem a (getLast?_mem_own (b :: l') c h)

theorem getLast?_cons_ne_nil (a : Char) :
    ∀ (w : List Char), w ≠ [] → (a :: w).getLast? = w.getLast? := by
  intro w hw
  cases w with
  | nil => exact absurd rfl hw
  | cons b w' => exact List.getLast?_cons_cons

theorem getLast?_append_right :
    ∀ (l1 l2 : List Char), l2 ≠ [] → (l1 ++ l2).getLast? = l2.getLast? := by
  intro l1
  induction l1 with
  | nil => intro l2 _; rfl
  | cons a l1' ih =>
      intro l2 h2
      rw [List.cons_append, getLast?_cons_ne_nil a (l1' ++ l2) (by
        intro h0
        rcases List.append_eq_nil.mp h0 with ⟨_, hc⟩
        exact h2 hc)]
      exact ih l2 h2

theorem pyJoin_ne_nil :
    ∀ (v : List Char) (ts : List (List Char)), v ≠ [] → pyJoin (v :: ts) ≠ [] := by
  intro v ts hv
  cases ts with
  | nil => exact hv
  | cons w ws =>
      show v ++ ' ' :: pyJoin (w :: ws) ≠ []
      intro h0
      rcases List.append_eq_nil.mp h0 with ⟨_, hc⟩
      exact List.cons_ne_nil _ _ hc

theorem pyJoin_getLast_nonspace :
    ∀ tokens : List (List Char),
      (∀ w ∈ tokens, w ≠ [] ∧ ∀ c ∈ w, isPySpace c = false) →
      ∀ c, (pyJoin tokens).getLast? = some c → isPySpace c = false := by
  intro tokens
  induction tokens with
  | nil => intro _ c h; simp [pyJoin] at h
  | cons t ts ih =>
      intro hwf c h
      have hth := hwf t (List.mem_cons_self t ts)
      cases ts with
      | nil => exact hth.2 c (getLast?_mem_own t c h)
      | cons v ts' =>
          have hvh := hwf v (List.mem_cons_of_mem t (List.mem_cons_self v ts'))
          rw [show pyJoin (t :: v :: ts') = t ++ ' ' :: pyJoin (v :: ts') from rfl] at h
          rw [getLast?_append_right t _ (List.cons_ne_nil _ _)] at h
          rw [getLast?_cons_ne_nil ' ' _ (pyJoin_ne_nil v ts' hvh.1)] at h
          exact ih (fun w hw => hwf w (List.mem_cons_of_mem t hw)) c h

theorem pyJoin_head_nonspace' :
    ∀ (tokens : List (List Char)),
      (∀ w ∈ tokens, w ≠ [] ∧ ∀ c ∈ w, isPySpace c = false) →
      ∀ c, (pyJoin tokens).head? = some c → isPySpace c = false := by
  intro tokens hwf c h
  cases tokens with
  | nil => simp [pyJoin] at h
  | cons t ts =>
      have hth := hwf t (List.mem_cons_self t ts)
      cases ht : t with
      | nil => exact absurd ht hth.1
      | cons a tt =>
          subst ht
          cases ts with
          | nil =>
              simp only [show pyJoin [a :: tt] = a :: tt from rfl, List.head?_cons,
                Option.some.injEq] at h
              subst h
              exact hth.2 a (List.mem_cons_self a tt)
          | cons v ts' =>
              rw [show pyJoin ((a :: tt) :: v :: ts') =
                a :: (tt ++ ' ' :: pyJoin (v :: ts')) from rfl] at h
              simp only [List.head?_cons, Option.some.injEq] at h
              subst h
              exact hth.2 a (List.mem_cons_self a tt)

theorem pyStrip_id {l : List Char}
    (h1 : ∀ c, l.head? = some c → isPySpace c = false)
    (h2 : ∀ c, l.getLast? = some c → isPySpace c = false) :
    pyStrip l = l := by
  unfold pyStrip
  have hd1 : l.dropWhile isPySpace = l := by
    cases l with
    | nil => rfl
    | cons a l' =>
        rw [List.dropWhile_cons, if_neg]
        intro hsp
        rw [h1 a rfl] at hsp
        exact Bool.false_ne_true hsp
  rw [hd1]
  have hd2 : l.reverse.dropWhile isPySpace = l.reverse := by
    cases hr : l.reverse with
    | nil => rfl
    | cons a r' =>
        rw [List.dropWhile_cons, if_neg]
        have hla : l.getLast? = some a := by
          rw [← List.head?_reverse, hr, List.head?_cons]
        intro hsp
        rw [h2 a hla] at hsp
        exact Bool.false_ne_true hsp
  rw [hd2, List.reverse_reverse]

theorem takeWhile_two {p : Char → Bool} :
    ∀ {l : List Char}, 2 ≤ (l.takeWhile p).length →
      ∃ a b tl, l = a :: b :: tl ∧ p a = true ∧ p b = true := by
  intro l h
  cases l with
  | nil => simp [List.takeWhile] at h
  | cons a l' =>
      rw [List.takeWhile_cons] at h
      by_cases hp : p a = true
      · rw [if_pos hp] at h
        simp only [List.length_cons] at h
        cases l' with
        | nil => simp [List.takeWhile] at h
        | cons b l'' =>
            rw [List.takeWhile_cons] at h
            by_cases hq : p b = true
            · exact ⟨a, b, l'', rfl, hp, hq⟩
            · rw [if_neg hq] at h
              simp at h
      · rw [if_neg hp] at h
        simp at h

theorem hasTriple_tail {c : Char} {rest : List Char}
    (h : hasTriple (c :: rest) = false) : hasTriple rest = false := by
  cases rest with
  | nil => rfl
  | cons x r1 =>
      cases r1 with
      | nil => rfl
      | cons y r2 =>
          rw [show hasTriple (c :: x :: y :: r2) =
            ((c = x && x = y) || hasTriple (x :: y :: r2)) from rfl] at h
          exact (Bool.or_eq_false_iff.mp h).2

theorem collapseRepeats_id :
    ∀ l : List Char, hasTriple l = false → collapseRepeats l = l := by
  intro l
  induction l with
  | nil => intro _; rfl
  | cons c rest ih =>
      intro h
      rw [collapseRepeats_cons]
      rw [if_neg]
      · rw [ih (hasTriple_tail h)]
      · intro hcond
        obtain ⟨a, b, tl, hrest, hpa, hpb⟩ := takeWhile_two hcond.2
        have ha : a = c := by simpa using hpa
        have hb : b = c := by simpa using hpb
        rw [ha, hb] at hrest
        rw [hrest] at h
        rw [show hasTriple (c :: c :: c :: tl) =
          ((c = c && c = c) || hasTriple (c :: c :: tl)) from rfl] at h
        simp at h

theorem findRuns_nil_eq (p : Bool) : findRuns p [] = [] := rfl

theorem findRuns_skip :
    ∀ (l rest : List Char), (∀ c ∈ l, isWordChar c = true) →
      findRuns true (l ++ rest) = findRuns true rest := by
  intro l
  induction l with
  | nil => intro rest _; rfl
  | cons c l' ih =>
      intro rest h
      rw [List.cons_append, findRuns_cons, if_neg (by simp)]
      rw [h c (List.mem_cons_self c l')]
      exact ih rest (fun x hx => h x (List.mem_cons_of_mem c hx))

theorem has3_tail {t : List Char} {ts : List (List Char)}
    (h : has3SingleLetters (t :: ts) = false) : has3SingleLetters ts = false := by
  cases ts with
  | nil => rfl
  | cons v ts' =>
      cases ts' with
      | nil => rfl
      | cons w ts'' =>
          rw [show has3SingleLetters (t :: v :: w :: ts'') =
            ((isSingleLetter t && isSingleLetter v && isSingleLetter w) ||
              has3SingleLetters (v :: w :: ts'')) from rfl] at h
          exact (Bool.or_eq_false_iff.mp h).2

theorem single_letter_shape {v : List Char} (h : isSingleLetter v = true) :
    ∃ e, v = [e] ∧ isAsciiLetter e = true := by
  cases v with
  | nil => simp [isSingleLetter] at h
  | cons e vt =>
      cases vt with
      | nil => exact ⟨e, rfl, h⟩
      | cons f vt' => simp [isSingleLetter] at h

theorem takePairs_token :
    ∀ (v : List Char) (ts : List (List Char)), v ≠ [] →
      (∀ c ∈ v, isWordChar c = true) → isSingleLetter v = false →
      takePairs (pyJoin (v :: ts)) = ([], pyJoin (v :: ts)) := by
  intro v ts hv hw hs
  cases v with
  | nil => exact absurd rfl hv
  | cons d vt =>
      cases vt with
      | nil =>
          have hd : isAsciiLetter d = false := by simpa [isSingleLetter] using hs
          cases ts with
          | nil => rfl
          | cons w ws =>
              show takePairs (d :: ' ' :: pyJoin (w :: ws)) = _
              simp only [takePairs]
              rw [if_neg (fun hc => by rw [hd] at hc; exact Bool.false_ne_true hc.1)]
              rfl
      | cons w vt' =>
          have hwns : isPySpace w = false :=
            word_not_space (hw w (List.mem_cons_of_mem d (List.mem_cons_self w vt')))
          cases ts with
          | nil =>
              show takePairs (d :: w :: vt') = _
              simp only [takePairs]
              rw [if_neg (fun hc => by rw [hwns] at hc; exact Bool.false_ne_true hc.2)]
              rfl
          | cons u us =>
              show takePairs (d :: w :: (vt' ++ ' ' :: pyJoin (u :: us))) = _
              simp only [takePairs]
              rw [if_neg (fun hc => by rw [hwns] at hc; exact Bool.false_ne_true hc.2)]
              rfl

theorem boundary_false :
    ∀ (v : List Char) (ts : List (List Char)), v ≠ [] →
      (∀ c ∈ v, isWordChar c = true) → isSingleLetter v = false →
      ¬(isAsciiLetter ((pyJoin (v :: ts)).headD ' ') = true ∧
        isWordChar ((pyJoin (v :: ts)).tail.headD ' ') = false) := by
  intro v ts hv hw hs
  cases v with
  | nil => exact absurd rfl hv
  | cons d vt =>
      cases vt with
      | nil =>
          have hd : isAsciiLetter d = false := by simpa [isSingleLetter] using hs
          cases ts with
          | nil =>
              intro hc
              rw [show (pyJoin [[d]]).headD ' ' = d from rfl, hd] at hc
              exact Bool.false_ne_true hc.1
          | cons w ws =>
              intro hc
              rw [show (pyJoin ([d] :: w :: ws)).headD ' ' = d from rfl, hd] at hc
              exact Bool.false_ne_true hc.1
      | cons w vt' =>
          have hww : isWordChar w = true :=
            hw w (List.mem_cons_of_mem d (List.mem_cons_self w vt'))
          cases ts with
          | nil =>
              intro hc
              rw [show (pyJoin [d :: w :: vt']).tail.headD ' ' = w from rfl, hww] at hc
              simp at hc
          | cons u us =>
              intro hc
              rw [show (pyJoin ((d :: w :: vt') :: u :: us)).tail.headD ' ' = w from rfl,
                hww] at hc
              simp at hc

theorem findRuns_join :
    ∀ tokens : List (List Char),
      (∀ w ∈ tokens, w ≠ [] ∧ ∀ c ∈ w, isWordChar c = true) →
      has3SingleLetters tokens = false →
      findRuns false (pyJoin tokens) = [] := by
  intro tokens
  induction tokens with
  | nil => intro _ _; rfl
  | cons t ts ih =>
      intro hwf h3
      have hih : findRuns false (pyJoin ts) = [] :=
        ih (fun w hw => hwf w (List.mem_cons_of_mem t hw)) (has3_tail h3)
      have hth := hwf t (List.mem_cons_self t ts)
      obtain ⟨c, tl, rfl⟩ : ∃ c tl, t = c :: tl := by
        cases t with
        | nil => exact absurd rfl hth.1
        | cons c tl => exact ⟨c, tl, rfl⟩
      have hcw : isWordChar c = true := hth.2 c (List.mem_cons_self c tl)
      have htlw : ∀ x ∈ tl, isWordChar x = true :=
        fun x hx => hth.2 x (List.mem_cons_of_mem c hx)
      -- evaluating the separator after the first token
      have hsep : ∀ b : Bool, findRuns b (' ' :: pyJoin ts) = [] → True := fun _ _ => trivial
      by_cases hcl : isAsciiLetter c = true
      · -- token starts with a letter
        cases htl : tl with
        | cons d tl' =>
            -- token of length ≥ 2: the pair engine fails at once
            have hdw : isWordChar d = true := htlw d (htl ▸ List.mem_cons_self d tl')
            have hdns : isPySpace d = false := word_not_space hdw
            cases ts with
            | nil =>
                show findRuns false (c :: d :: tl') = []
                rw [findRuns_cons]
                have htp : takePairs (c :: d :: tl') = ([], c :: d :: tl') := by
                  simp only [takePairs]
                  rw [if_neg (fun hc => by rw [hdns] at hc; exact absurd hc.2 (by simp))]
                rw [if_pos ⟨hcl, rfl⟩, htp]
                rw [if_neg (by simp)]
                rw [if_neg (fun hc => by
                  simp only [List.headD_cons, List.tail_cons] at hc
                  rw [hdw] at hc
                  exact absurd hc.2 (by simp))]
                rw [if_neg (by simp)]
                rw [show (d :: tl' : List Char) = (d :: tl') ++ [] by simp]
                rw [findRuns_skip (d :: tl') [] (htl ▸ htlw)]
                rfl
            | cons v ts' =>
                show findRuns false (c :: ((d :: tl') ++ ' ' :: pyJoin (v :: ts'))) = []
                rw [findRuns_cons]
                rw [List.cons_append]
                have htp : takePairs (c :: d :: (tl' ++ ' ' :: pyJoin (v :: ts'))) =
                    ([], c :: d :: (tl' ++ ' ' :: pyJoin (v :: ts'))) := by
                  simp only [takePairs]
                  rw [if_neg (fun hc => by rw [hdns] at hc; exact absurd hc.2 (by simp))]
                rw [if_pos ⟨hcl, rfl⟩, htp]
                rw [if_neg (by simp)]
                rw [if_neg (fun hc => by
                  simp only [List.headD_cons, List.tail_cons] at hc
                  rw [hdw] at hc
                  exact absurd hc.2 (by simp))]
                rw [if_neg (by simp)]
                rw [show (d :: (tl' ++ ' ' :: pyJoin (v :: ts')) : List Char) =
                  (d :: tl') ++ ' ' :: pyJoin (v :: ts') from rfl]
                rw [findRuns_skip (d :: tl') _ (htl ▸ htlw)]
                rw [findRuns_cons, if_neg (by simp)]
                rw [show isWordChar ' ' = false from rfl]
                exact hih
        | nil =>
            -- single-letter token [c]
            cases ts with
            | nil =>
                show findRuns false [c] = []
                rw [findRuns_cons, if_pos ⟨hcl, rfl⟩]
                have htp : takePairs [c] = ([], [c]) := rfl
                rw [htp]
                rw [if_neg (by simp)]
                rw [if_pos (by simp [hcl]; rfl)]
                rw [if_neg (by simp)]
                rfl
            | cons v ts' =>
                have hvh := hwf v (List.mem_cons_of_mem _ (List.mem_cons_self v ts'))
                show findRuns false (c :: ' ' :: pyJoin (v :: ts')) = []
                rw [findRuns_cons, if_pos ⟨hcl, rfl⟩]
                have htp0 : takePairs (c :: ' ' :: pyJoin (v :: ts')) =
                    (c :: ' ' :: (takePairs (pyJoin (v :: ts'))).1,
                      (takePairs (pyJoin (v :: ts'))).2) := by
                  simp only [takePairs]
                  rw [if_pos ⟨hcl, by decide⟩]
                by_cases hvs : isSingleLetter v = true
                · obtain ⟨e, rfl, hel⟩ := single_letter_shape hvs
                  cases ts' with
                  | nil =>
                      have htp1 : takePairs (pyJoin [[e]]) = ([], [e]) := rfl
                      rw [htp0, htp1]
                      rw [if_neg (by simp)]
                      rw [if_pos (by simp [hel]; rfl)]
                      rw [if_neg (by simp)]
                      rw [findRuns_cons, if_neg (by simp)]
                      rw [show isWordChar ' ' = false from rfl]
                      exact hih
                  | cons w ts'' =>
                      have hwh := hwf w (List.mem_cons_of_mem _
                        (List.mem_cons_of_mem _ (List.mem_cons_self w ts'')))
                      have hwns : isSingleLetter w = false := by
                        rw [htl] at h3
                        rw [show has3SingleLetters ([c] :: [e] :: w :: ts'') =
                          ((isSingleLetter [c] && isSingleLetter [e] && isSingleLetter w) ||
                            has3SingleLetters ([e] :: w :: ts'')) from rfl] at h3
                        have h31 := (Bool.or_eq_false_iff.mp h3).1
                        simp only [isSingleLetter, hcl, hel, Bool.true_and] at h31
                        exact h31
                      have htp2 : takePairs (pyJoin ([e] :: w :: ts'')) =
                          (e :: ' ' :: (takePairs (pyJoin (w :: ts''))).1,
                            (takePairs (pyJoin (w :: ts''))).2) := by
                        show takePairs (e :: ' ' :: pyJoin (w :: ts'')) = _
                        simp only [takePairs]
                        rw [if_pos ⟨hel, by decide⟩]
                      have htp3 := takePairs_token w ts'' hwh.1 hwh.2 hwns
                      rw [htp0, htp2, htp3]
                      rw [if_neg (by
                        simp only []
                        exact pyJoin_ne_nil w ts'' hwh.1)]
                      rw [if_neg (by
                        simp only []
                        exact boundary_false w ts'' hwh.1 hwh.2 hwns)]
                      rw [if_neg (by simp)]
                      rw [findRuns_cons, if_neg (by simp)]
                      rw [show isWordChar ' ' = false from rfl]
                      exact hih
                · have hvsf : isSingleLetter v = false := by
                    cases hb : isSingleLetter v
                    · rfl
                    · exact absurd hb hvs
                  have htp1 := takePairs_token v ts' hvh.1 hvh.2 hvsf
                  rw [htp0, htp1]
                  rw [if_neg (by
                    simp only []
                    exact pyJoin_ne_nil v ts' hvh.1)]
                  rw [if_neg (by
                    simp only []
                    exact boundary_false v ts' hvh.1 hvh.2 hvsf)]
                  rw [if_neg (by simp)]
                  rw [findRuns_cons, if_neg (by simp)]
                  rw [show isWordChar ' ' = false from rfl]
                  exact hih
      · -- token starts with a digit (or other non-letter word char)
        have hclf : (isAsciiLetter c = true ∧ False) → False := fun hc => hc.2
        cases ts with
        | nil =>
            show findRuns false (c :: tl) = []
            rw [findRuns_cons, if_neg (fun hc => hcl hc.1)]
            rw [hcw]
            rw [show (tl : List Char) = tl ++ [] by simp]
            rw [findRuns_skip tl [] htlw]
            rfl
        | cons v ts' =>
            show findRuns false (c :: (tl ++ ' ' :: pyJoin (v :: ts'))) = []
            rw [findRuns_cons, if_neg (fun hc => hcl hc.1)]
            rw [hcw]
            rw [findRuns_skip tl _ htlw]
            rw [findRuns_cons, if_neg (by simp)]
            rw [show isWordChar ' ' = false from rfl]
            exact hih

theorem substituteToken_id {kamus : SlangDict} {w : List Char}
    (hw : ∀ c ∈ w, isWordChar c = true)
    (h : dictGet kamus (String.mk w) = none) :
    substituteToken kamus w = w := by
  unfold substituteToken
  rw [List.filter_eq_self.mpr hw, h]

/-- C9: `preprocess_teks` is the identity on already-cleaned text: lowercase
letters/digits/spaces only, single-spaced with no leading/trailing space
(splitting on whitespace and re-joining with single spaces is the identity),
no character repeated 3+ times, no run of 3+ single-letter tokens, no
token of digits only, no `http`, and no token in the lexicon — for every
fetch outcome of the slang dictionary. -/
theorem preprocess_fixed_point :
    ∀ (fetch : Option (List HFRow)) (s : List Char),
      (∀ c ∈ s, isCleanChar c = true) →
      pyJoin (pySplit s) = s →
      hasTriple s = false →
      has3SingleLetters (pySplit s) = false →
      (∀ w ∈ pySplit s, ¬(∀ c ∈ w, isAsciiDigit c = true)) →
      containsHttp s = false →
      (∀ w ∈ pySplit s, dictGet (load_slang_dict fetch) (String.mk w) = none) →
      preprocess_teks fetch (String.mk s) = String.mk s := by
  intro fetch s h1 h2 h3 h4 h5 h6 h7
  have htok := pySplit_tokens s.length s (le_refl _)
  have hwf : ∀ w ∈ pySplit s, w ≠ [] ∧ ∀ c ∈ w, isWordChar c = true := by
    intro w hw
    obtain ⟨hne, hns, hmem⟩ := htok w hw
    refine ⟨hne, fun c hc => ?_⟩
    rcases cc_word_or_space (h1 c (hmem c hc)) with hword | hsp
    · exact hword
    · subst hsp
      have := hns ' ' hc
      simp [isPySpace] at this
  have hwfs : ∀ w ∈ pySplit s, w ≠ [] ∧ ∀ c ∈ w, isPySpace c = false :=
    fun w hw => ⟨(htok w hw).1, (htok w hw).2.1⟩
  have h_norm : normalisasi_unicode s = s := by
    unfold normalisasi_unicode
    rw [List.filter_eq_self]
    intro c hc
    simpa using cc_ascii (h1 c hc)
  have h_lower : s.map pyLower = s := map_id_of (fun c hc => cc_lower (h1 c hc))
  have h_e : stripEmojiNames s = s :=
    stripEmojiNames_id (fun c hc => (cc_ne_special (h1 c hc)).1)
  have h_u : stripUrls s = s := stripUrls_id h6
  have h_m : stripMentions s = s :=
    stripMentions_id (fun c hc =>
      ⟨(cc_ne_special (h1 c hc)).2.1, (cc_ne_special (h1 c hc)).2.2⟩)
  have h_sym : symbolsToSpace s = s := by
    apply symbolsToSpace_id
    intro c hc
    rcases cc_word_or_space (h1 c hc) with hw | hs
    · exact Or.inl hw
    · subst hs; exact Or.inr (by decide)
  have h_num : stripNumbers s = s := by
    unfold stripNumbers
    conv_lhs => rw [← h2]
    rw [stripNums_join (pySplit s) hwf h5]
    exact h2
  have h_sp : collapseSpaces s = s := by
    conv_lhs => rw [← h2]
    rw [collapseSpaces_join (pySplit s) hwfs]
    exact h2
  have h_rep : collapseRepeats s = s := collapseRepeats_id s h3
  have h_strip : pyStrip s = s := by
    apply pyStrip_id
    · intro c hc
      rw [← h2] at hc
      exact pyJoin_head_nonspace' (pySplit s) hwfs c hc
    · intro c hc
      rw [← h2] at hc
      exact pyJoin_getLast_nonspace (pySplit s) hwfs c hc
  have h_comb : combine_character s = s := by
    unfold combine_character
    conv_lhs => rw [← h2]
    rw [findRuns_join (pySplit s) hwf h4]
    rw [h2]
    rfl
  have h_rs : replace_slang (load_slang_dict fetch) s = s := by
    unfold replace_slang
    rw [map_id_of (fun w hw => substituteToken_id ((hwf w hw).2) (h7 w hw))]
    exact h2
  show String.mk (pyStrip (replace_slang (load_slang_dict fetch)
    (combine_character (clean_text (normalisasi_unicode s))))) = String.mk s
  rw [h_norm]
  unfold clean_text
  rw [h_lower, h_e, h_u, h_m, h_sym, h_num, h_sp, h_rep, h_strip, h_comb, h_rs, h_strip]

theorem preprocess_fixed_point_witness :
    (∀ c ∈ ("makan siang enak sekali").toList, isCleanChar c = true) ∧
    preprocess_teks none "makan siang enak sekali" = "makan siang enak sekali" :=
  ⟨by decide,
   preprocess_fixed_point none ("makan siang enak sekali").toList
     (by decide) (by decide) (by decide) (by decide) (by decide) (by decide) (by decide)⟩

/-!
### Claim C2: batch behaviour on a per-item classification failure
-/

/-- A chunk oracle that fails (raises) exactly on chunks containing "bad". -/
def exOracleB : List String → Option (List (List ℚ)) :=
  fun chunk => if chunk.contains "bad" then none
    else some (chunk.map (fun _ => [0, 1]))

/-- The corresponding single-text oracle. -/
def exOracle1 : String → Option (List ℚ) :=
  fun t => if t = "bad" then none else some [0, 1]

/-- A stand-in for `np.exp` on the logits used in the examples. -/
def exExp : ℚ → ℚ := fun x => x + 1

/-- C2 counterexample: with batch size 1, the item "good" is classified
successfully in its own chunk (genuinely "Komentar Judi", class 1), then the
chunk containing "bad" raises; the single `except` around the whole loop
discards the computed result and returns the neutral default for EVERY item —
"good" does not keep its genuine prediction. -/
theorem predict_batch_discards_results :
    predict_batch true exOracleB exExp 1 ["good", "bad"] =
      [defaultNormal, defaultNormal] ∧
    predict_text true exOracle1 exExp "good" = ⟨"Komentar Judi", 2/3, 1⟩ ∧
    defaultNormal ≠ (⟨"Komentar Judi", 2/3, 1⟩ : PredResult) :=
  ⟨by decide, by decide, by decide⟩

theorem chunkResultsAux_length :
    ∀ (chunk : List String) (probRows : List (List ℚ)) (j : Nat) (rs : List PredResult),
      chunkResultsAux probRows j chunk = some rs → rs.length = chunk.length := by
  intro chunk
  induction chunk with
  | nil =>
      intro probRows j rs h
      cases h
      rfl
  | cons t ts ih =>
      intro probRows j rs h
      unfold chunkResultsAux at h
      split at h
      · cases h
      · split at h
        · cases h
        · rename_i r hci rs' hcr
          cases h
          simp only [List.length_cons]
          rw [ih probRows (j + 1) rs' hcr]

theorem runChunks_length :
    ∀ (n : Nat) (clsB : List String → Option (List (List ℚ))) (pyexp : ℚ → ℚ)
      (b : Nat) (texts : List String), texts.length ≤ n →
      ∀ rs, runChunks clsB pyexp b texts = some rs → rs.length = texts.length := by
  intro n
  induction n with
  | zero =>
      intro clsB pyexp b texts hl rs h
      have h0 : texts = [] := List.eq_nil_of_length_eq_zero (Nat.le_zero.mp hl)
      subst h0
      cases h
      rfl
  | succ n ih =>
      intro clsB pyexp b texts hl rs h
      cases texts with
      | nil => cases h; rfl
      | cons t ts =>
          simp only [List.length_cons] at hl
          rw [runChunks_cons] at h
          split at h
          · cases h
          · rename_i rows hcb
            split at h
            · cases h
            · rename_i crs hcr
              split at h
              · cases h
              · rename_i rest hrc
                cases h
                rw [List.length_append]
                rw [chunkResultsAux_length _ _ _ _ hcr]
                rw [ih clsB pyexp b _ (by
                  have := List.length_drop (b + 1) (t :: ts)
                  simp only [List.length_cons] at this
                  omega) rest hrc]
                rw [List.length_take, List.length_drop]
                simp only [List.length_cons]
                omega

/-- C2 (amended): an inference failure anywhere in the chunk loop makes
`predict_batch` return the neutral default for EVERY item — results of
already-processed chunks are discarded, because one `try/except` wraps the
whole loop; the call itself never raises and always returns exactly
`len(texts)` results. -/
theorem predict_batch_failure_spec :
    (∀ (clsB : List String → Option (List (List ℚ))) (pyexp : ℚ → ℚ) (b : Nat)
        (texts : List String),
      runChunks clsB pyexp b texts = none →
      predict_batch true clsB pyexp (b + 1) texts =
        List.replicate texts.length defaultNormal) ∧
    (∀ (ml : Bool) (clsB : List String → Option (List (List ℚ))) (pyexp : ℚ → ℚ)
        (bs : Nat) (texts : List String),
      (predict_batch ml clsB pyexp bs texts).length = texts.length) := by
  constructor
  · intro clsB pyexp b texts hrc
    by_cases he : texts = []
    · subst he
      cases hrc
    · unfold predict_batch
      rw [if_neg (by simp), if_neg he, if_neg (by omega)]
      simp only [Nat.add_sub_cancel]
      split
      · rename_i rs hrs
        rw [hrc] at hrs
        cases hrs
      · rfl
  · intro ml clsB pyexp bs texts
    unfold predict_batch
    by_cases hml : ml = false
    · rw [if_pos hml]
      exact List.length_replicate _ _
    · rw [if_neg hml]
      by_cases he : texts = []
      · rw [if_pos he]
        subst he
        rfl
      · rw [if_neg he]
        by_cases hbs : bs = 0
        · rw [if_pos hbs]
          exact List.length_replicate _ _
        · rw [if_neg hbs]
          split
          · rename_i rs hrc
            exact runChunks_length texts.length clsB pyexp (bs - 1) texts (le_refl _) rs hrc
          · exact List.length_replicate _ _

theorem predict_batch_failure_spec_witness :
    runChunks exOracleB exExp 0 ["bad"] = none ∧
    predict_batch true exOracleB exExp 1 ["bad"] = List.replicate 1 defaultNormal ∧
    (predict_batch true exOracleB exExp 1 ["bad"]).length = 1 :=
  ⟨by decide,
   predict_batch_failure_spec.1 exOracleB exExp 0 ["bad"] (by decide),
   predict_batch_failure_spec.2 true exOracleB exExp 1 ["bad"]⟩

/-!
### Claim C3: shape of prediction results
-/

/-- The claim's well-formedness predicate on a result: one of the two labels,
class index 0 or 1, confidence in [0,1]. -/
def okResult (r : PredResult) : Prop :=
  (r.label = "Komentar Normal" ∨ r.label = "Komentar Judi") ∧
  (r.prediction = 0 ∨ r.prediction = 1) ∧
  0 ≤ r.confidence ∧ r.confidence ≤ 1

/-- C3 counterexample: when the model fails to load, `predict_text` returns
label "Error" (a third label value) with class index -1 — not a two-valued
label with index 0 or 1 — and `predict_batch` returns one such result per
text. -/
theorem predict_error_branch :
    predict_text false (fun _ => none) (fun x => x) "hello" = errorResult ∧
    ¬ okResult errorResult ∧
    predict_batch false (fun _ => none) (fun x => x) 16 ["hello"] = [errorResult] := by
  refine ⟨by decide, ?_, by decide⟩
  unfold okResult errorResult
  decide

theorem softmax_bounds (pyexp : ℚ → ℚ) (hpos : ∀ x, 0 < pyexp x) :
    ∀ (logits : List ℚ), logits ≠ [] →
      ∀ q ∈ softmax pyexp logits, 0 ≤ q ∧ q ≤ 1 := by
  intro logits hne q hq
  unfold softmax at hq
  obtain ⟨x, hx, hxe⟩ := List.mem_map.mp hq
  obtain ⟨y, _, hye⟩ := List.mem_map.mp hx
  have hx0 : 0 < x := hye ▸ hpos y
  have hs : 0 < (logits.map pyexp).sum := by
    apply List.sum_pos
    · intro z hz
      obtain ⟨u, _, hue⟩ := List.mem_map.mp hz
      exact hue ▸ hpos u
    · intro h0
      rw [List.map_eq_nil] at h0
      exact hne h0
  have hxs : x ≤ (logits.map pyexp).sum :=
    List.single_le_sum (fun z hz => by
      obtain ⟨u, _, hue⟩ := List.mem_map.mp hz
      exact le_of_lt (hue ▸ hpos u)) x hx
  subst hxe
  constructor
  · exact div_nonneg (le_of_lt hx0) (le_of_lt hs)
  · exact (div_le_one hs).mpr hxs

theorem npMax_bounds :
    ∀ (l : List ℚ), (∀ q ∈ l, 0 ≤ q ∧ q ≤ 1) → 0 ≤ npMax l ∧ npMax l ≤ 1 := by
  intro l h
  cases l with
  | nil => exact ⟨le_refl 0, (by norm_num : (0 : ℚ) ≤ 1)⟩
  | cons x rest =>
      show 0 ≤ rest.foldl max x ∧ rest.foldl max x ≤ 1
      have hgen : ∀ (r : List ℚ) (acc : ℚ), (∀ q ∈ r, 0 ≤ q ∧ q ≤ 1) →
          0 ≤ acc ∧ acc ≤ 1 → 0 ≤ r.foldl max acc ∧ r.foldl max acc ≤ 1 := by
        intro r
        induction r with
        | nil => intro acc _ hacc; exact hacc
        | cons y r' ih =>
            intro acc hr hacc
            rw [List.foldl_cons]
            apply ih
            · intro q hq; exact hr q (List.mem_cons_of_mem y hq)
            · have hy := hr y (List.mem_cons_self y r')
              exact ⟨le_trans hacc.1 (le_max_left acc y), max_le hacc.2 hy.2⟩
      exact hgen rest x (fun q hq => h q (List.mem_cons_of_mem x hq))
        (h x (List.mem_cons_self x rest))

theorem argmaxGo_lt :
    ∀ (l : List ℚ) (i b : Nat) (m : ℚ), b < i → argmaxGo l i b m < i + l.length := by
  intro l
  induction l with
  | nil => intro i b m h; simpa [argmaxGo] using h
  | cons x r ih =>
      intro i b m h
      unfold argmaxGo
      split
      · have := ih (i + 1) i x (Nat.lt_succ_self i)
        simp only [List.length_cons]
        omega
      · have := ih (i + 1) b m (by omega)
        simp only [List.length_cons]
        omega

theorem npArgmax_lt : ∀ (l : List ℚ), l ≠ [] → npArgmax l < l.length := by
  intro l hne
  cases l with
  | nil => exact absurd rfl hne
  | cons x rest =>
      show argmaxGo rest 1 0 x < (x :: rest).length
      have := argmaxGo_lt rest 1 0 x (by omega)
      simp only [List.length_cons]
      omega

theorem softmax_length (pyexp : ℚ → ℚ) (logits : List ℚ) :
    (softmax pyexp logits).length = logits.length := by
  unfold softmax
  rw [List.length_map, List.length_map]

theorem rowResult_ok (pyexp : ℚ → ℚ) (hpos : ∀ x, 0 < pyexp x)
    (logits : List ℚ) (h2 : logits.length = 2) :
    okResult ⟨if npArgmax (softmax pyexp logits) = 1 then "Komentar Judi"
        else "Komentar Normal",
      npMax (softmax pyexp logits), (npArgmax (softmax pyexp logits) : Int)⟩ := by
  have hne : logits ≠ [] := by
    intro h0; rw [h0] at h2; simp at h2
  have hsne : softmax pyexp logits ≠ [] := by
    intro h0
    have := softmax_length pyexp logits
    rw [h0] at this
    simp at this
    omega
  have hlt := npArgmax_lt (softmax pyexp logits) hsne
  rw [softmax_length pyexp logits, h2] at hlt
  have hconf := npMax_bounds (softmax pyexp logits)
    (softmax_bounds pyexp hpos logits hne)
  refine ⟨?_, ?_, hconf.1, hconf.2⟩
  · by_cases ha : npArgmax (softmax pyexp logits) = 1
    · rw [if_pos ha]; exact Or.inr rfl
    · rw [if_neg ha]; exact Or.inl rfl
  · by_cases ha : npArgmax (softmax pyexp logits) = 1
    · rw [ha]; exact Or.inr rfl
    · have h0 : npArgmax (softmax pyexp logits) = 0 := by omega
      rw [h0]; exact Or.inl rfl

theorem okResult_defaultNormal : okResult defaultNormal := by
  unfold okResult defaultNormal
  refine ⟨Or.inl rfl, Or.inl rfl, le_refl 0, by norm_num⟩

theorem mem_of_getElem?_eq_some {α : Type} : ∀ (l : List α) (j : Nat) (a : α), l[j]? = some a → a ∈ l := by
  intro l
  induction l with
  | nil => intro j a h; simp at h
  | cons x xs ih =>
      intro j a h
      cases j with
      | zero =>
          rw [List.getElem?_cons_zero] at h
          cases h
          exact List.mem_cons_self x xs
      | succ j =>
          exact List.mem_cons_of_mem x (ih j a (by rwa [List.getElem?_cons_succ] at h))

theorem chunkItem_ok (pyexp : ℚ → ℚ) (hpos : ∀ x, 0 < pyexp x)
    (probRows : List (List ℚ))
    (hrows : ∀ prow ∈ probRows, ∃ lrow, lrow.length = 2 ∧ prow = softmax pyexp lrow)
    (j : Nat) (t : String) (r : PredResult)
    (h : chunkItem probRows j t = some r) : okResult r := by
  unfold chunkItem at h
  split at h
  · cases h
    exact okResult_defaultNormal
  · split at h
    · cases h
    · rename_i prow hj
      cases h
      obtain ⟨lrow, hl2, hpe⟩ := hrows prow (mem_of_getElem?_eq_some probRows j prow hj)
      subst hpe
      exact rowResult_ok pyexp hpos lrow hl2

theorem chunkAux_mem_ok (pyexp : ℚ → ℚ) (hpos : ∀ x, 0 < pyexp x) :
    ∀ (chunk : List String) (probRows : List (List ℚ)) (j : Nat) (rs : List PredResult),
      (∀ prow ∈ probRows, ∃ lrow, lrow.length = 2 ∧ prow = softmax pyexp lrow) →
      chunkResultsAux probRows j chunk = some rs →
      ∀ r ∈ rs, okResult r := by
  intro chunk
  induction chunk with
  | nil =>
      intro probRows j rs _ h r hr
      cases h
      simp at hr
  | cons t ts ih =>
      intro probRows j rs hrows h r hr
      unfold chunkResultsAux at h
      split at h
      · cases h
      · rename_i r0 hci
        split at h
        · cases h
        · rename_i rs' hcr
          cases h
          rcases List.mem_cons.mp hr with h1 | h2
          · subst h1
            exact chunkItem_ok pyexp hpos probRows hrows j t r hci
          · exact ih probRows (j + 1) rs' hrows hcr r h2

theorem runChunks_mem_ok (clsB : List String → Option (List (List ℚ)))
    (pyexp : ℚ → ℚ) (b : Nat) (hpos : ∀ x, 0 < pyexp x)
    (hbin : ∀ chunk rows, clsB chunk = some rows → ∀ row ∈ rows, row.length = 2) :
    ∀ (n : Nat) (texts : List String), texts.length ≤ n →
      ∀ rs, runChunks clsB pyexp b texts = some rs → ∀ r ∈ rs, okResult r := by
  intro n
  induction n with
  | zero =>
      intro texts hl rs h r hr
      have h0 : texts = [] := List.eq_nil_of_length_eq_zero (Nat.le_zero.mp hl)
      subst h0
      cases h
      simp at hr
  | succ n ih =>
      intro texts hl rs h r hr
      cases texts with
      | nil => cases h; simp at hr
      | cons t ts =>
          simp only [List.length_cons] at hl
          rw [runChunks_cons] at h
          split at h
          · cases h
          · rename_i rows hcb
            split at h
            · cases h
            · rename_i crs hcr
              split at h
              · cases h
              · rename_i rest hrc
                cases h
                rcases List.mem_append.mp hr with h1 | h2
                · apply chunkAux_mem_ok pyexp hpos _ _ _ _ _ hcr r h1
                  intro prow hp
                  obtain ⟨lrow, hlm, hle⟩ := List.mem_map.mp hp
                  exact ⟨lrow, hbin _ rows hcb lrow hlm, hle.symm⟩
                · exact ih _ (by
                    have := List.length_drop (b + 1) (t :: ts)
                    simp only [List.length_cons] at this
                    omega) rest hrc r h2

/-- C3 (amended): when the model is loaded, every result of `predict_text`
and every element of `predict_batch` has one of the two labels, class index
0 or 1, and confidence in [0,1] — given that `np.exp` is positive (true of
real exponentiation; float underflow not modelled) and the classifier is
binary (two logits per text, as `fhru/indobert-komentarbersih` is).  When
the model fails to load, both functions instead return `{"label": "Error",
"confidence": 0.0, "prediction": -1}` results. -/
theorem predict_result_wellformed :
    (∀ (cls : String → Option (List ℚ)) (pyexp : ℚ → ℚ) (text : String),
      predict_text false cls pyexp text = errorResult) ∧
    (∀ (cls : String → Option (List ℚ)) (pyexp : ℚ → ℚ) (text : String),
      (∀ x : ℚ, 0 < pyexp x) →
      (∀ l, cls text = some l → l.length = 2) →
      okResult (predict_text true cls pyexp text)) ∧
    (∀ (clsB : List String → Option (List (List ℚ))) (pyexp : ℚ → ℚ)
        (bs : Nat) (texts : List String),
      (∀ x : ℚ, 0 < pyexp x) →
      (∀ chunk rows, clsB chunk = some rows → ∀ row ∈ rows, row.length = 2) →
      ∀ r ∈ predict_batch true clsB pyexp bs texts, okResult r) := by
  refine ⟨fun cls pyexp text => rfl, ?_, ?_⟩
  · intro cls pyexp text hpos hbin
    unfold predict_text
    rw [if_neg (by simp)]
    split
    · exact okResult_defaultNormal
    · split
      · exact okResult_defaultNormal
      · rename_i logits hcl
        exact rowResult_ok pyexp hpos logits (hbin logits hcl)
  · intro clsB pyexp bs texts hpos hbin r hr
    unfold predict_batch at hr
    rw [if_neg (by simp)] at hr
    by_cases he : texts = []
    · rw [if_pos he] at hr
      simp at hr
    · rw [if_neg he] at hr
      by_cases hbs : bs = 0
      · rw [if_pos hbs] at hr
        rw [List.eq_of_mem_replicate hr]
        exact okResult_defaultNormal
      · rw [if_neg hbs] at hr
        split at hr
        · rename_i rs hrc
          exact runChunks_mem_ok clsB pyexp (bs - 1) hpos hbin texts.length texts
            (le_refl _) rs hrc r hr
        · rw [List.eq_of_mem_replicate hr]
          exact okResult_defaultNormal

theorem predict_result_wellformed_witness :
    okResult (predict_text true (fun _ => some [0, 1]) (fun _ => 1) "halo") ∧
    (∀ r ∈ predict_batch true (fun chunk => some (chunk.map (fun _ => [0, 1])))
      (fun _ => 1) 16 ["halo", "dua"], okResult r) :=
  ⟨predict_result_wellformed.2.1 (fun _ => some [0, 1]) (fun _ => 1) "halo"
     (fun _ => one_pos)
     (fun l hl => by cases hl; rfl),
   predict_result_wellformed.2.2 (fun chunk => some (chunk.map (fun _ => [0, 1])))
     (fun _ => 1) 16 ["halo", "dua"]
     (fun _ => one_pos)
     (fun chunk rows hr row hrow => by
       cases hr
       obtain ⟨t, _, hte⟩ := List.mem_map.mp hrow
       subst hte
       rfl)⟩

def exC10clsB : List String → Option (List (List ℚ)) := fun chunk =>
  if chunk.contains "" then none else some (chunk.map fun _ => [0, 10])

def exC10exp : ℚ → ℚ := fun x => if x = 0 then 1 else 3

theorem predict_batch_blank_invokes_model :
    predict_batch true exC10clsB exC10exp 16 ["halo"] =
      [⟨"Komentar Judi", 3/4, 1⟩] ∧
    predict_batch true exC10clsB exC10exp 16 ["", "halo"] =
      [defaultNormal, defaultNormal] := by
  constructor
  · decide
  · decide

theorem chunkItem_blank (probRows : List (List ℚ)) (j : Nat) (text : String)
    (h : pyStrip text.data = []) : chunkItem probRows j text = some defaultNormal := by
  unfold chunkItem
  rw [if_pos h]

theorem chunkAux_blank_elem :
    ∀ (chunk : List String) (probRows : List (List ℚ)) (j : Nat) (rs : List PredResult),
      chunkResultsAux probRows j chunk = some rs →
      ∀ (i : Nat) (text : String), chunk[i]? = some text → pyStrip text.data = [] →
      rs[i]? = some defaultNormal := by
  intro chunk
  induction chunk with
  | nil =>
      intro probRows j rs _ i text hi _
      simp at hi
  | cons t ts ih =>
      intro probRows j rs h i text hi hb
      unfold chunkResultsAux at h
      split at h
      · cases h
      · rename_i r0 hci
        split at h
        · cases h
        · rename_i rs' hcr
          cases h
          cases i with
          | zero =>
              rw [List.getElem?_cons_zero] at hi
              cases hi
              rw [chunkItem_blank probRows j t hb] at hci
              cases hci
              exact List.getElem?_cons_zero
          | succ i =>
              rw [List.getElem?_cons_succ] at hi
              rw [List.getElem?_cons_succ]
              exact ih probRows (j + 1) rs' hcr i text hi hb

theorem runChunks_blank_elem (clsB : List String → Option (List (List ℚ)))
    (pyexp : ℚ → ℚ) (b : Nat) :
    ∀ (n : Nat) (texts : List String), texts.length ≤ n →
      ∀ rs, runChunks clsB pyexp b texts = some rs →
      ∀ (i : Nat) (text : String), texts[i]? = some text → pyStrip text.data = [] →
      rs[i]? = some defaultNormal := by
  intro n
  induction n with
  | zero =>
      intro texts hl rs h i text hi hb
      have h0 : texts = [] := List.eq_nil_of_length_eq_zero (Nat.le_zero.mp hl)
      subst h0
      simp at hi
  | succ n ih =>
      intro texts hl rs h i text hi hb
      cases texts with
      | nil => simp at hi
      | cons t ts =>
          simp only [List.length_cons] at hl
          rw [runChunks_cons] at h
          split at h
          · cases h
          · rename_i rows hcb
            split at h
            · cases h
            · rename_i crs hcr
              split at h
              · cases h
              · rename_i rest hrc
                cases h
                have hcl : crs.length = ((t :: ts).take (b + 1)).length :=
                  chunkResultsAux_length _ _ _ _ hcr
                rw [List.length_take, List.length_cons] at hcl
                obtain ⟨hilen, -⟩ := List.getElem?_eq_some.mp hi
                rw [List.length_cons] at hilen
                by_cases hilt : i < crs.length
                · rw [List.getElem?_append_left hilt]
                  apply chunkAux_blank_elem _ _ _ _ hcr i text _ hb
                  rw [List.getElem?_take_of_lt (by omega)]
                  exact hi
                · rw [List.getElem?_append_right (Nat.le_of_not_lt hilt)]
                  have hcrsbl : crs.length = b + 1 := by omega
                  apply ih _ (by
                    have := List.length_drop (b + 1) (t :: ts)
                    simp only [List.length_cons] at this
                    omega) rest hrc (i - crs.length) text _ hb
                  rw [List.getElem?_drop]
                  rw [hcrsbl]
                  have hsum : b + 1 + (i - (b + 1)) = i := by omega
                  rw [hsum]
                  exact hi

/-- C10 (amended): an empty or whitespace-only text yields the fixed result
`{"label": "Komentar Normal", "confidence": 0.0, "prediction": 0}` from
`predict_text` — without invoking the classifier, since the blank check
precedes tokenization — and as the corresponding element of `predict_batch`
when the model is loaded.  In the batch path the classifier IS still run on
the chunk containing the blank text (the whole chunk is tokenized and fed to
the model); only its row for that text is discarded, so the element is this
fixed value for every classifier behaviour, including failure, whose
whole-batch fallback coincides with it. -/
theorem predict_blank_fixed :
    (∀ (cls : String → Option (List ℚ)) (pyexp : ℚ → ℚ) (text : String),
      pyStrip text.data = [] → predict_text true cls pyexp text = defaultNormal) ∧
    (∀ (clsB : List String → Option (List (List ℚ))) (pyexp : ℚ → ℚ)
        (bs : Nat) (texts : List String) (i : Nat) (text : String),
      texts[i]? = some text → pyStrip text.data = [] →
      (predict_batch true clsB pyexp bs texts)[i]? = some defaultNormal) := by
  constructor
  · intro cls pyexp text h
    unfold predict_text
    rw [if_neg (by simp)]
    rw [if_pos h]
  · intro clsB pyexp bs texts i text hi hb
    obtain ⟨hilen, -⟩ := List.getElem?_eq_some.mp hi
    unfold predict_batch
    rw [if_neg (by simp)]
    rw [if_neg (by intro he; subst he; simp at hi)]
    by_cases hbs : bs = 0
    · rw [if_pos hbs]
      exact List.getElem?_replicate_of_lt hilen
    · rw [if_neg hbs]
      split
      · rename_i rs hrc
        exact runChunks_blank_elem clsB pyexp (bs - 1) texts.length texts
          (le_refl _) rs hrc i text hi hb
      · exact List.getElem?_replicate_of_lt hilen

theorem predict_blank_fixed_witness :
    predict_text true (fun _ => some [5, 5]) (fun _ => 1) " " = defaultNormal ∧
    (predict_batch true (fun chunk => some (chunk.map fun _ => [5, 5]))
      (fun _ => 1) 16 ["halo", "  "])[1]? = some defaultNormal :=
  ⟨predict_blank_fixed.1 (fun _ => some [5, 5]) (fun _ => 1) " " (by decide),
   predict_blank_fixed.2 (fun chunk => some (chunk.map fun _ => [5, 5]))
     (fun _ => 1) 16 ["halo", "  "] 1 "  " (by decide) (by decide)⟩
